import Mathlib

/-!
Verification development for the `pytorch_wrapper` repository.

We give a shallow embedding of the training-manager layer
(`ml/models/train_managers/nn_train_manager.py` and
`ml/models/train_managers/base_train_manager.py`), of the classical-ML
predictor base class (`ml/models/ml_models/toolbox.py`) and of the JSON
dump utility (`ml/utils/utils.py`), and prove the specification claims
about them.

External effects (the PyTorch model manager's `fit`/`predict`, the
dataloaders) are modelled as oracles passed in as arguments; every call
the train manager makes to its model manager is recorded in an event
trace so that temporal claims ("checkpointed exactly when ...",
"annealed exactly once per train phase") become statements about the
trace.
-/

namespace PytorchWrapper

/-- Modelled from the spec: the per-phase average meter of
`ml/src/metrics.py`, which is not under `src/`.  It accumulates one
value per `update` call and exposes their running aggregate; `reset`
clears the epoch accumulation; `update_best` reports whether the epoch
aggregate is a new best.  Because the comparison rule lives in the
missing file, the successive outcomes of `update_best` are modelled as a
prescribed stream of booleans (`bestFlags`), which keeps every
control-flow theorem below valid for an arbitrary comparison rule. -/
structure AverageMeter where
  sum : ℚ
  count : ℕ
  bestFlags : List Bool

def AverageMeter.update (a : AverageMeter) (v : ℚ) : AverageMeter :=
  { a with sum := a.sum + v, count := a.count + 1 }

def AverageMeter.update_best (a : AverageMeter) : Bool × AverageMeter :=
  match a.bestFlags with
  | [] => (false, a)
  | b :: rest => (b, { a with bestFlags := rest })

def AverageMeter.reset (a : AverageMeter) : AverageMeter :=
  { a with sum := 0, count := 0 }

def AverageMeter.average (a : AverageMeter) : ℚ :=
  a.sum / (a.count : ℚ)

/-- Modelled from the spec: a `Metric` of `ml/src/metrics.py` (not under
`src/`) as used by the train managers: it carries a `name`, a
`save_model` flag consulted by `_update_by_epoch`, an evaluation
function turning one `(loss, preds, labels)` observation into the value
pushed into its average meter, and the meter itself. -/
structure Metric where
  name : String
  save_model : Bool
  evalFn : ℚ → List ℚ → List ℚ → ℚ
  average_meter : AverageMeter

/-- `Metric.update(loss_value, preds, labels)`: push one observation
into the metric's epoch average meter. -/
def Metric.update (m : Metric) (loss : ℚ) (preds labels : List ℚ) : Metric :=
  { m with average_meter := m.average_meter.update (m.evalFn loss preds labels) }

/-- Events recording every call the train manager makes to its model
manager (`fit`, `save_model`, `anneal_lr`, `load_model`) and every meter
reset performed by `_update_by_epoch`. -/
inductive TMEvent where
  | fitCall (epoch : ℕ) (phase : String) (batch : ℕ)
  | saveModel
  | annealLr (amount : ℚ)
  | resetMeter (phase : String) (metricName : String)
  | loadModel
  deriving DecidableEq

def TMEvent.isAnneal : TMEvent → Bool
  | .annealLr _ => true
  | _ => false

def TMEvent.isSave : TMEvent → Bool
  | .saveModel => true
  | _ => false

/-- Association-list lookup, embedding Python `dict` access
(`self.dataloaders[phase]`, `self.metrics[phase]`). -/
def assocFind {α : Type} : List (String × α) → String → Option α
  | [], _ => none
  | (k, v) :: rest, key => if k = key then some v else assocFind rest key

/-- In-place update of the value at a key, embedding mutation of the
objects stored under a Python `dict` key. -/
def assocUpdate {α : Type} : List (String × α) → String → α → List (String × α)
  | [], _, _ => []
  | (k, v) :: rest, key, nv =>
      if k = key then (k, nv) :: rest else (k, v) :: assocUpdate rest key nv

/-- `BaseTrainManager.check_keys_from_dict` (base_train_manager.py,
lines 109-112): assert that every listed key is present. -/
def check_keys_from_dict {α : Type} (must_contain_keys : List String)
    (dic : List (String × α)) : Bool :=
  must_contain_keys.all fun k => (assocFind dic k).isSome

/-- One batch of a dataloader: the inputs and the labels (flattened). -/
def Batch : Type := List ℚ × List ℚ

/-- The model manager's `fit` is external to the train manager; its
result at each call site is supplied by an oracle indexed by the epoch,
phase and batch number of the call, which identifies the call uniquely
within a `train` run. -/
def FitOracle : Type := ℕ → String → ℕ → ℚ × List ℚ

/-- The metric-list pass of `NNTrainManager._update_by_epoch`
(nn_train_manager.py, lines 39-47): for each metric in order, query
`update_best`; if the metric is flagged `save_model`, the flag came back
true and the phase is `'val'`, save the model and remember that a best
validation was found; then reset the metric's epoch average meter.
Returns (best_val_flag, updated metrics, events emitted). -/
def updateMetricsLoop (phase : String) :
    List Metric → Bool × List Metric × List TMEvent
  | [] => (false, [], [])
  | m :: rest =>
      let p := m.average_meter.update_best
      let improved := m.save_model && p.1 && (phase = "val")
      let m2 := { m with average_meter := p.2.reset }
      let r := updateMetricsLoop phase rest
      (improved || r.1, m2 :: r.2.1,
        (if improved then [TMEvent.saveModel] else []) ++
          TMEvent.resetMeter phase m.name :: r.2.2)

/-- `NNTrainManager._update_by_epoch` (nn_train_manager.py, lines
36-53): run the metric pass, then anneal the learning rate exactly when
the phase is `'train'`. -/
def update_by_epoch (phase : String) (learning_anneal : ℚ)
    (ms : List Metric) : Bool × List Metric × List TMEvent :=
  let r := updateMetricsLoop phase ms
  (r.1, r.2.1,
    r.2.2 ++ (if phase = "train" then [TMEvent.annealLr learning_anneal] else []))

/-- The configuration fields of `cfg` the embedded code reads. -/
structure Config where
  epochs : ℕ
  retrain_epochs : ℕ
  learning_anneal : ℚ
  tta : ℕ
  silent : Bool

/-- The batch loop of `NNTrainManager.train` (nn_train_manager.py,
lines 104-113): for each batch, call `model_manager.fit`, extend the
prediction and label accumulators, and update the first metric
(`self.metrics[phase][0]`) with the batch loss.  Accessing element 0 of
an empty metric list raises `IndexError` in Python; this is the error
case.  Returns (pred_list, label_list, metrics, fit events). -/
def runBatches (fitRes : FitOracle) (epoch : ℕ) (phase : String) :
    List Batch → ℕ → List Metric → List ℚ → List ℚ →
      Except String (List ℚ × List ℚ × List Metric × List TMEvent)
  | [], _, ms, pl, ll => .ok (pl, ll, ms, [])
  | b :: rest, i, ms, pl, ll =>
      let fr := fitRes epoch phase i
      match ms with
      | [] => .error "IndexError"
      | m0 :: mrest =>
          match runBatches fitRes epoch phase rest (i + 1)
              (m0.update fr.1 fr.2 b.2 :: mrest) (pl ++ fr.2) (ll ++ b.2) with
          | .error e => .error e
          | .ok r => .ok (r.1, r.2.1, r.2.2.1, TMEvent.fitCall epoch phase i :: r.2.2.2)

/-- Line 116 of nn_train_manager.py: after the batch loop, every metric
except the first is updated once with `(0.0, pred_list, label_list)`. -/
def updateTailMetrics (pl ll : List ℚ) : List Metric → List Metric
  | [] => []
  | m :: rest => m :: rest.map fun m2 => m2.update 0 pl ll

/-- Per-phase record instrumenting one iteration of the phase loop of
`NNTrainManager.train`: the epoch and phase, the `best_val_flag`
returned by `_update_by_epoch`, the accumulated `pred_list` and
`label_list`, the metric list as observed at the `_record_log` point
(line 117, after the tail-metric update, before `_update_by_epoch`),
and the events emitted while processing the phase. -/
structure PhaseLog where
  epoch : ℕ
  phase : String
  best_val_flag : Bool
  pred_list : List ℚ
  label_list : List ℚ
  metricsSnap : List Metric
  phaseEvents : List TMEvent

/-- The mutable state threaded through `NNTrainManager.train`. -/
structure TrainState where
  mets : List (String × List Metric)
  best_val_pred : List ℚ
  events : List TMEvent
  log : List PhaseLog

/-- One iteration of the phase loop of `NNTrainManager.train`
(nn_train_manager.py, lines 101-126): run the batch loop, update the
tail metrics, run `_update_by_epoch`, and on a best validation replace
`best_val_pred` with a copy of this phase's `pred_list`. -/
def run_phase (cfg : Config) (fitRes : FitOracle)
    (dl : List (String × List Batch)) (epoch : ℕ) (phase : String)
    (st : TrainState) : Except String TrainState :=
  match assocFind dl phase with
  | none => .error "KeyError"
  | some batches =>
    match assocFind st.mets phase with
    | none => .error "KeyError"
    | some ms =>
      match runBatches fitRes epoch phase batches 0 ms [] [] with
      | .error e => .error e
      | .ok r =>
        let pl := r.1
        let ll := r.2.1
        let ms2 := updateTailMetrics pl ll r.2.2.1
        let fitEvents := r.2.2.2
        let u := update_by_epoch phase cfg.learning_anneal ms2
        .ok { mets := assocUpdate st.mets phase u.2.1,
              best_val_pred := if u.1 then pl else st.best_val_pred,
              events := st.events ++ fitEvents ++ u.2.2,
              log := st.log ++ [⟨epoch, phase, u.1, pl, ll, ms2, fitEvents ++ u.2.2⟩] }

/-- The inner `for phase in phases` loop of `NNTrainManager.train`. -/
def runPhaseList (cfg : Config) (fitRes : FitOracle)
    (dl : List (String × List Batch)) (epoch : ℕ) :
    List String → TrainState → Except String TrainState
  | [], st => .ok st
  | ph :: rest, st =>
      match run_phase cfg fitRes dl epoch ph st with
      | .error e => .error e
      | .ok st2 => runPhaseList cfg fitRes dl epoch rest st2

/-- The outer `for epoch in range(epochs)` loop of
`NNTrainManager.train`: process epochs `e, e+1, ..., e+n-1`. -/
def runEpochsFrom (cfg : Config) (fitRes : FitOracle)
    (dl : List (String × List Batch)) (phases : List String) :
    ℕ → ℕ → TrainState → Except String TrainState
  | _, 0, st => .ok st
  | e, n + 1, st =>
      match runPhaseList cfg fitRes dl e phases st with
      | .error err => .error err
      | .ok st2 => runEpochsFrom cfg fitRes dl phases (e + 1) n st2

/-- The phase list computed by `NNTrainManager.train` (lines 91-96):
`['train', 'val']` when validating, `['train']` otherwise, and
`['val']` whenever `only_validate` is set. -/
def trainPhases (with_validate only_validate : Bool) : List String :=
  let phases := if with_validate then ["train", "val"] else ["train"]
  if only_validate then ["val"] else phases

/-- `NNTrainManager.train` (nn_train_manager.py, lines 83-136): choose
the phases, assert their dataloaders exist, run the epoch loop, and if
not validating save the model once at the very end.  Returns the final
metrics, `best_val_pred`, the event trace, and the per-phase log. -/
def train (cfg : Config) (fitRes : FitOracle)
    (dl : List (String × List Batch)) (mets : List (String × List Metric))
    (with_validate only_validate : Bool) : Except String TrainState :=
  let phases := trainPhases with_validate only_validate
  if check_keys_from_dict phases dl then
    match runEpochsFrom cfg fitRes dl phases 0 cfg.epochs ⟨mets, [], [], []⟩ with
    | .error e => .error e
    | .ok st =>
        .ok { st with
                events := st.events ++ (if !with_validate then [TMEvent.saveModel] else []) }
  else .error "AssertionError"

/-- The model manager's `predict` is external; its result at batch `i`
of a `_predict` run is supplied by an oracle. -/
def PredictOracle : Type := ℕ → List ℚ

/-- The accumulation loop of `NNTrainManager._predict`
(nn_train_manager.py, lines 69-75): `hstack` every batch's flattened
predictions and labels, in order. -/
def collectPredict (predictRes : PredictOracle) :
    List Batch → ℕ → List ℚ × List ℚ
  | [], _ => ([], [])
  | b :: rest, i =>
      let r := collectPredict predictRes rest (i + 1)
      (predictRes i ++ r.1, b.2 ++ r.2)

/-- NumPy `xs.reshape(k, -1)` on a flat array, as the list of its `k`
rows (row-major); well-formed when `k` divides the length. -/
def npReshapeRows (k : ℕ) (xs : List ℚ) : List (List ℚ) :=
  (List.range k).map fun r => (xs.drop (r * (xs.length / k))).take (xs.length / k)

/-- NumPy `rows.mean(axis=0)`: the column-wise arithmetic mean. -/
def npMeanAxis0 (rows : List (List ℚ)) : List ℚ :=
  match rows with
  | [] => []
  | r0 :: _ =>
      (List.range r0.length).map fun i =>
        ((rows.map fun row => row.getD i 0).sum) / (rows.length : ℚ)

/-- `NNTrainManager._predict` (nn_train_manager.py, lines 63-81):
assert the phase's dataloader exists, accumulate predictions and labels
over its batches, and when `cfg['tta']` is truthy replace the
predictions by `pred_list.reshape(tta, -1).mean(axis=0)` (a `ValueError`
when `tta` does not divide the length, as NumPy raises) and truncate the
labels to the first `len // tta` entries. -/
def predict_phase (cfg : Config) (predictRes : PredictOracle)
    (dl : List (String × List Batch)) (phase : String) :
    Except String (List ℚ × List ℚ) :=
  if check_keys_from_dict [phase] dl then
    match assocFind dl phase with
    | none => .error "KeyError"
    | some batches =>
      let r := collectPredict predictRes batches 0
      if cfg.tta ≠ 0 then
        if r.1.length % cfg.tta ≠ 0 then .error "ValueError"
        else
          .ok (npMeanAxis0 (npReshapeRows cfg.tta r.1),
               r.2.take (r.2.length / cfg.tta))
      else .ok (r.1, r.2)
  else .error "AssertionError"

/-- Modelled from the spec: the supported neural-network model names
exported by `ml/models/model_managers/nn_model_manager.py`, which is not
under `src/`; the names are those the train manager's own code mentions
(base_train_manager.py, lines 118-122). -/
def supported_nn_models : List String := ["cnn", "rnn", "cnn_rnn", "logmel_cnn"]

/-- Modelled from the spec: the keys of `supported_pretrained_models`
from `ml/models/model_managers/nn_model_manager.py` (not under `src/`);
representative pretrained-architecture names. -/
def supported_pretrained_model_keys : List String := ["resnet", "vgg"]

/-- Modelled from the spec: the supported classical-ML model names
exported by `ml/models/model_managers/ml_model_manager.py` (not under
`src/`); one name per predictor class of `ml/models/ml_models/toolbox.py`
(KNN, SGDC, SVM, NaiveBayes). -/
def supported_ml_models : List String := ["knn", "sgdc", "svm", "nb"]

/-- The two model-manager layers `_init_model_manager` can return. -/
inductive ModelManagerKind where
  | nnModelManager
  | mlModelManager
  deriving DecidableEq

/-- `BaseTrainManager._init_model_manager` (base_train_manager.py,
lines 114-129): return an `NNModelManager` when the model type is a
supported neural-network or pretrained name, an `MLModelManager` when it
is a supported classical-ML name, and fall through (Python `None`)
otherwise. -/
def init_model_manager (model_type : String) : Option ModelManagerKind :=
  if model_type ∈ supported_nn_models ++ supported_pretrained_model_keys then
    some ModelManagerKind.nnModelManager
  else if model_type ∈ supported_ml_models then
    some ModelManagerKind.mlModelManager
  else none

/-- The state of a `BaseMLPredictor`
(ml/models/ml_models/toolbox.py, lines 38-87) that the fitted-flag
protocol observes. -/
structure BaseMLPredictor where
  fitted : Bool

/-- `__init__` (line 42): `self.fitted = False`. -/
def BaseMLPredictor.init : BaseMLPredictor := ⟨false⟩

/-- `fit` (line 55): sets `self.fitted = True` before delegating to the
wrapped estimator. -/
def BaseMLPredictor.fit (p : BaseMLPredictor) : BaseMLPredictor :=
  { p with fitted := true }

/-- `load_model` (line 51): sets `self.fitted = True`. -/
def BaseMLPredictor.load_model (p : BaseMLPredictor) : BaseMLPredictor :=
  { p with fitted := true }

/-- `save_model` (lines 44-46): does not touch the flag. -/
def BaseMLPredictor.save_model (p : BaseMLPredictor) : BaseMLPredictor := p

/-- `predict_proba` (lines 86-87): does not touch the flag. -/
def BaseMLPredictor.predict_proba (p : BaseMLPredictor) : BaseMLPredictor := p

/-- `predict` (lines 81-84): raise `NotFittedError` when the flag is
unset, otherwise delegate. -/
def BaseMLPredictor.predict (p : BaseMLPredictor) :
    Except String BaseMLPredictor :=
  if p.fitted then .ok p else .error "NotFittedError"

/-- The operations callable on a `BaseMLPredictor` after construction. -/
inductive MLOp where
  | opFit
  | opLoadModel
  | opSaveModel
  | opPredict
  | opPredictProba
  deriving DecidableEq

/-- Apply one operation to the predictor state; a raising `predict`
leaves the state unchanged. -/
def applyOp (p : BaseMLPredictor) : MLOp → BaseMLPredictor
  | .opFit => p.fit
  | .opLoadModel => p.load_model
  | .opSaveModel => p.save_model
  | .opPredict => p
  | .opPredictProba => p.predict_proba

/-- Run a sequence of operations from a given state. -/
def runOps : List MLOp → BaseMLPredictor → BaseMLPredictor
  | [], p => p
  | o :: rest, p => runOps rest (applyOp p o)

/-- `NNTrainManager.retrain` (nn_train_manager.py, lines 138-168),
traced faithfully.  `self.metrics` is a `Dict[str, Sequence[Metric]]`
(ml/utils/utils.py, line 6), so `for metric in self.metrics:` iterates
over the dict's KEYS, which are strings; `metric.add_average_meter(...)`
on a string raises `AttributeError` as soon as the dict is non-empty.
With an empty metrics dict: when `retrain_epochs >= 1`, the epoch loop
reads `self.dataloaders['retrain']` (`KeyError` if absent); with a
non-empty dataloader the batch loop reads `self.metrics['retrain']`
(`KeyError` on the empty dict); with an empty dataloader the loop falls
through to `self._update_by_epoch(phase, epoch, ...)`, which passes 3
positional arguments to a 2-argument method (`TypeError`).  When
`retrain_epochs == 0` the code reaches `self.test(...,
phase='retrain_test')`, whose `_predict` asserts the `'retrain_test'`
dataloader exists (`AssertionError`) and whose metric loop reads
`self.metrics['test']` (`KeyError` on the empty dict).  Every path
raises. -/
def retrain (cfg : Config) (dl : List (String × List Batch))
    (mets : List (String × List Metric)) : Except String Unit :=
  match mets with
  | _ :: _ => .error "AttributeError"
  | [] =>
      if cfg.retrain_epochs = 0 then
        match assocFind dl "retrain_test" with
        | none => .error "AssertionError"
        | some _ => .error "KeyError"
      else
        match assocFind dl "retrain" with
        | none => .error "KeyError"
        | some [] => .error "TypeError"
        | some (_ :: _) => .error "KeyError"

/-! ### Closed forms for the batch loop

Pure descriptions of what one pass of the phase loop computes, used to
characterise `run_phase`. -/

/-- The predictions accumulated by the batch loop of `train` starting at
batch index `i`. -/
def predsFrom (f : FitOracle) (e : ℕ) (ph : String) : ℕ → List Batch → List ℚ
  | _, [] => []
  | i, _ :: rest => (f e ph i).2 ++ predsFrom f e ph (i + 1) rest

/-- The labels accumulated by the batch loop. -/
def labelsFrom : List Batch → List ℚ
  | [] => []
  | b :: rest => b.2 ++ labelsFrom rest

/-- The `fit` events emitted by the batch loop starting at index `i`. -/
def fitEventsFrom (e : ℕ) (ph : String) : ℕ → List Batch → List TMEvent
  | _, [] => []
  | i, _ :: rest => TMEvent.fitCall e ph i :: fitEventsFrom e ph (i + 1) rest

/-- The per-batch values pushed into the first metric's meter. -/
def headValsFrom (f : FitOracle) (e : ℕ) (ph : String)
    (ev : ℚ → List ℚ → List ℚ → ℚ) : ℕ → List Batch → List ℚ
  | _, [] => []
  | i, b :: rest => ev (f e ph i).1 (f e ph i).2 b.2 :: headValsFrom f e ph ev (i + 1) rest

/-- The first metric after the batch loop. -/
def headMetricFrom (f : FitOracle) (e : ℕ) (ph : String) :
    ℕ → List Batch → Metric → Metric
  | _, [], m => m
  | i, b :: rest, m =>
      headMetricFrom f e ph (i + 1) rest (m.update (f e ph i).1 (f e ph i).2 b.2)

theorem runBatches_nil (f : FitOracle) (e : ℕ) (ph : String) (i : ℕ)
    (ms : List Metric) (pl ll : List ℚ) :
    runBatches f e ph [] i ms pl ll = .ok (pl, ll, ms, []) := rfl

theorem runBatches_cons_eq (f : FitOracle) (e : ℕ) (ph : String) :
    ∀ (batches : List Batch) (i : ℕ) (m0 : Metric) (mrest : List Metric)
      (pl ll : List ℚ),
      runBatches f e ph batches i (m0 :: mrest) pl ll =
        .ok (pl ++ predsFrom f e ph i batches, ll ++ labelsFrom batches,
             headMetricFrom f e ph i batches m0 :: mrest,
             fitEventsFrom e ph i batches)
  | [], i, m0, mrest, pl, ll => by
      simp [runBatches, predsFrom, labelsFrom, headMetricFrom, fitEventsFrom]
  | b :: rest, i, m0, mrest, pl, ll => by
      simp only [runBatches]
      rw [runBatches_cons_eq f e ph rest (i + 1) _ mrest (pl ++ (f e ph i).2)
            (ll ++ b.2)]
      simp [predsFrom, labelsFrom, headMetricFrom, fitEventsFrom, List.append_assoc]

/-- `_update_by_epoch` applied to the end-of-phase metric snapshot. -/
def updOf (cfg : Config) (f : FitOracle) (e : ℕ) (ph : String)
    (batches : List Batch) (m0 : Metric) (mrest : List Metric) :
    Bool × List Metric × List TMEvent :=
  update_by_epoch ph cfg.learning_anneal
    (updateTailMetrics (predsFrom f e ph 0 batches) (labelsFrom batches)
      (headMetricFrom f e ph 0 batches m0 :: mrest))

/-- The log entry one pass of the phase loop appends. -/
def logEntryOf (cfg : Config) (f : FitOracle) (e : ℕ) (ph : String)
    (batches : List Batch) (m0 : Metric) (mrest : List Metric) : PhaseLog :=
  { epoch := e
    phase := ph
    best_val_flag := (updOf cfg f e ph batches m0 mrest).1
    pred_list := predsFrom f e ph 0 batches
    label_list := labelsFrom batches
    metricsSnap := updateTailMetrics (predsFrom f e ph 0 batches)
      (labelsFrom batches) (headMetricFrom f e ph 0 batches m0 :: mrest)
    phaseEvents := fitEventsFrom e ph 0 batches ++ (updOf cfg f e ph batches m0 mrest).2.2 }

/-- The pure effect of one successful pass of the phase loop. -/
def phaseStep (cfg : Config) (f : FitOracle) (e : ℕ) (ph : String)
    (batches : List Batch) (m0 : Metric) (mrest : List Metric)
    (st : TrainState) : TrainState :=
  { mets := assocUpdate st.mets ph (updOf cfg f e ph batches m0 mrest).2.1
    best_val_pred := if (updOf cfg f e ph batches m0 mrest).1 then
        predsFrom f e ph 0 batches
      else st.best_val_pred
    events := st.events ++ (logEntryOf cfg f e ph batches m0 mrest).phaseEvents
    log := st.log ++ [logEntryOf cfg f e ph batches m0 mrest] }

/-- Characterisation of `run_phase` on the success path. -/
theorem run_phase_eq (cfg : Config) (f : FitOracle)
    (dl : List (String × List Batch)) (e : ℕ) (ph : String)
    (st : TrainState) (batches : List Batch) (m0 : Metric)
    (mrest : List Metric)
    (hdl : assocFind dl ph = some batches)
    (hm : assocFind st.mets ph = some (m0 :: mrest)) :
    run_phase cfg f dl e ph st = .ok (phaseStep cfg f e ph batches m0 mrest st) := by
  rw [run_phase, hdl, hm]
  dsimp only
  rw [runBatches_cons_eq]
  simp [phaseStep, logEntryOf, updOf, List.append_assoc]

/-! ### Association-list and metric-pass lemmas -/

theorem assocFind_assocUpdate_self {α : Type} :
    ∀ (l : List (String × α)) (k : String) (v w : α),
      assocFind l k = some w → assocFind (assocUpdate l k v) k = some v
  | [], k, v, w => by simp [assocFind]
  | (k0, v0) :: rest, k, v, w => by
      by_cases h : k0 = k
      · simp [assocFind, assocUpdate, h]
      · simp only [assocFind, assocUpdate, if_neg h]
        exact assocFind_assocUpdate_self rest k v w

theorem assocFind_assocUpdate_ne {α : Type} :
    ∀ (l : List (String × α)) (k k' : String) (v : α), k' ≠ k →
      assocFind (assocUpdate l k v) k' = assocFind l k'
  | [], k, k', v, _ => rfl
  | (k0, v0) :: rest, k, k', v, h => by
      by_cases h0 : k0 = k
      · subst h0
        have hne : k0 ≠ k' := fun hh => h hh.symm
        simp [assocFind, assocUpdate, hne]
      · simp only [assocFind, assocUpdate, if_neg h0]
        by_cases h1 : k0 = k'
        · simp [h1]
        · simp only [if_neg h1]
          exact assocFind_assocUpdate_ne rest k k' v h

theorem check_keys_iff {α : Type} (keys : List String) (dic : List (String × α)) :
    check_keys_from_dict keys dic = true ↔ ∀ k ∈ keys, ∃ v, assocFind dic k = some v := by
  simp [check_keys_from_dict, List.all_eq_true, Option.isSome_iff_exists]

/-- The effect of the metric pass of `_update_by_epoch` on one metric:
`update_best` is queried and the meter is reset. -/
def metricReset (m : Metric) : Metric :=
  { m with average_meter := (m.average_meter.update_best).2.reset }

theorem updateMetricsLoop_metrics (phase : String) :
    ∀ ms : List Metric, (updateMetricsLoop phase ms).2.1 = ms.map metricReset
  | [] => rfl
  | m :: rest => by
      simp [updateMetricsLoop, updateMetricsLoop_metrics phase rest, metricReset]

theorem updateMetricsLoop_flag (phase : String) :
    ∀ ms : List Metric, (updateMetricsLoop phase ms).1 = true ↔
      (phase = "val" ∧ ∃ m ∈ ms, m.save_model = true ∧
        (m.average_meter.update_best).1 = true)
  | [] => by simp [updateMetricsLoop]
  | m :: rest => by
      simp only [updateMetricsLoop, Bool.or_eq_true, Bool.and_eq_true,
        decide_eq_true_eq, updateMetricsLoop_flag phase rest, List.mem_cons]
      constructor
      · rintro (⟨⟨hs, hb⟩, hv⟩ | ⟨hv, m2, hm2, h⟩)
        · exact ⟨hv, m, Or.inl rfl, hs, hb⟩
        · exact ⟨hv, m2, Or.inr hm2, h⟩
      · rintro ⟨hv, m2, (rfl | hm2), h⟩
        · exact Or.inl ⟨⟨h.1, h.2⟩, hv⟩
        · exact Or.inr ⟨hv, m2, hm2, h⟩

theorem updateMetricsLoop_save_mem (phase : String) :
    ∀ ms : List Metric, TMEvent.saveModel ∈ (updateMetricsLoop phase ms).2.2 ↔
      (phase = "val" ∧ ∃ m ∈ ms, m.save_model = true ∧
        (m.average_meter.update_best).1 = true)
  | [] => by simp [updateMetricsLoop]
  | m :: rest => by
      simp only [updateMetricsLoop, List.mem_append, List.mem_cons,
        updateMetricsLoop_save_mem phase rest]
      constructor
      · rintro (hmem | (habs | ⟨hv, m2, hm2, h⟩))
        · by_cases himp : (m.save_model && (m.average_meter.update_best).1 &&
              decide (phase = "val")) = true
          · simp only [Bool.and_eq_true, decide_eq_true_eq] at himp
            exact ⟨himp.2, m, Or.inl rfl, himp.1.1, himp.1.2⟩
          · simp [himp] at hmem
        · cases habs
        · exact ⟨hv, m2, Or.inr hm2, h⟩
      · rintro ⟨hv, m2, (rfl | hm2), h⟩
        · exact Or.inl (by simp [h.1, h.2, hv])
        · exact Or.inr (Or.inr ⟨hv, m2, hm2, h⟩)

theorem updateMetricsLoop_filter_anneal (phase : String) :
    ∀ ms : List Metric,
      (updateMetricsLoop phase ms).2.2.filter TMEvent.isAnneal = []
  | [] => rfl
  | m :: rest => by
      by_cases himp : (m.save_model && (m.average_meter.update_best).1 &&
          decide (phase = "val")) = true <;>
        simp [updateMetricsLoop, himp, List.filter_append,
          updateMetricsLoop_filter_anneal phase rest, TMEvent.isAnneal]

theorem updateMetricsLoop_filter_save (phase : String) (h : phase ≠ "val") :
    ∀ ms : List Metric,
      (updateMetricsLoop phase ms).2.2.filter TMEvent.isSave = []
  | [] => rfl
  | m :: rest => by
      simp [updateMetricsLoop, h, List.filter_append,
        updateMetricsLoop_filter_save phase h rest, TMEvent.isSave]

theorem update_by_epoch_metrics (phase : String) (la : ℚ) (ms : List Metric) :
    (update_by_epoch phase la ms).2.1 = ms.map metricReset := by
  simp [update_by_epoch, updateMetricsLoop_metrics]

theorem update_by_epoch_flag (phase : String) (la : ℚ) (ms : List Metric) :
    (update_by_epoch phase la ms).1 = true ↔
      (phase = "val" ∧ ∃ m ∈ ms, m.save_model = true ∧
        (m.average_meter.update_best).1 = true) := by
  simp only [update_by_epoch]
  exact updateMetricsLoop_flag phase ms

theorem update_by_epoch_save_mem (phase : String) (la : ℚ) (ms : List Metric) :
    TMEvent.saveModel ∈ (update_by_epoch phase la ms).2.2 ↔
      (phase = "val" ∧ ∃ m ∈ ms, m.save_model = true ∧
        (m.average_meter.update_best).1 = true) := by
  simp only [update_by_epoch, List.mem_append]
  rw [← updateMetricsLoop_save_mem phase ms]
  constructor
  · rintro (h | h)
    · exact h
    · by_cases hp : phase = "train" <;> simp [hp] at h
  · exact Or.inl

theorem update_by_epoch_filter_anneal (phase : String) (la : ℚ) (ms : List Metric) :
    (update_by_epoch phase la ms).2.2.filter TMEvent.isAnneal =
      if phase = "train" then [TMEvent.annealLr la] else [] := by
  by_cases hp : phase = "train" <;>
    simp [update_by_epoch, List.filter_append, updateMetricsLoop_filter_anneal,
      hp, TMEvent.isAnneal]

theorem update_by_epoch_filter_save (phase : String) (la : ℚ) (ms : List Metric)
    (h : phase ≠ "val") :
    (update_by_epoch phase la ms).2.2.filter TMEvent.isSave = [] := by
  by_cases hp : phase = "train"
  · subst hp
    simp [update_by_epoch, List.filter_append, updateMetricsLoop_filter_save _ h,
      TMEvent.isSave]
  · simp [update_by_epoch, List.filter_append, updateMetricsLoop_filter_save _ h,
      hp, TMEvent.isSave]

theorem update_by_epoch_reset (phase : String) (la : ℚ) (ms : List Metric) :
    ∀ m ∈ (update_by_epoch phase la ms).2.1,
      m.average_meter.sum = 0 ∧ m.average_meter.count = 0 := by
  rw [update_by_epoch_metrics]
  intro m hm
  obtain ⟨m0, _, rfl⟩ := List.mem_map.mp hm
  simp [metricReset, AverageMeter.reset]

theorem fitEventsFrom_filter_anneal (e : ℕ) (ph : String) :
    ∀ (bs : List Batch) (i : ℕ),
      (fitEventsFrom e ph i bs).filter TMEvent.isAnneal = []
  | [], _ => rfl
  | _ :: rest, i => by
      simp [fitEventsFrom, fitEventsFrom_filter_anneal e ph rest (i + 1), TMEvent.isAnneal]

theorem fitEventsFrom_filter_save (e : ℕ) (ph : String) :
    ∀ (bs : List Batch) (i : ℕ),
      (fitEventsFrom e ph i bs).filter TMEvent.isSave = []
  | [], _ => rfl
  | _ :: rest, i => by
      simp [fitEventsFrom, fitEventsFrom_filter_save e ph rest (i + 1), TMEvent.isSave]

theorem fitEventsFrom_save_not_mem (e : ℕ) (ph : String) :
    ∀ (bs : List Batch) (i : ℕ), TMEvent.saveModel ∉ fitEventsFrom e ph i bs
  | [], _ => by simp [fitEventsFrom]
  | _ :: rest, i => by
      simp [fitEventsFrom, fitEventsFrom_save_not_mem e ph rest (i + 1)]

/-! ### Success and accumulation over the epoch/phase loops -/

/-- Every phase has a non-empty metric list. -/
def metsOK (phases : List String) (mets : List (String × List Metric)) : Prop :=
  ∀ ph ∈ phases, ∃ m0 rest, assocFind mets ph = some (m0 :: rest)

/-- Every phase has a dataloader. -/
def dlOK (phases : List String) (dl : List (String × List Batch)) : Prop :=
  ∀ ph ∈ phases, ∃ bs, assocFind dl ph = some bs

theorem metsOK_phaseStep (phases : List String) (cfg : Config) (f : FitOracle)
    (e : ℕ) (ph : String) (batches : List Batch) (m0 : Metric)
    (mrest : List Metric) (st : TrainState)
    (hm : assocFind st.mets ph = some (m0 :: mrest))
    (hOK : metsOK phases st.mets) :
    metsOK phases (phaseStep cfg f e ph batches m0 mrest st).mets := by
  intro ph' hph'
  by_cases h : ph' = ph
  · subst h
    refine ⟨metricReset (headMetricFrom f e ph' 0 batches m0),
      (updateTailMetrics (predsFrom f e ph' 0 batches) (labelsFrom batches)
        (headMetricFrom f e ph' 0 batches m0 :: mrest)).tail.map metricReset, ?_⟩
    show assocFind (assocUpdate st.mets ph' _) ph' = _
    rw [assocFind_assocUpdate_self st.mets ph' _ _ hm]
    simp [updOf, update_by_epoch_metrics, updateTailMetrics]
  · obtain ⟨a, b, hab⟩ := hOK ph' hph'
    refine ⟨a, b, ?_⟩
    show assocFind (assocUpdate st.mets ph _) ph' = _
    rw [assocFind_assocUpdate_ne st.mets ph ph' _ h]
    exact hab

theorem runPhaseList_main {β : Type} (cfg : Config) (f : FitOracle)
    (dl : List (String × List Batch)) (phases : List String)
    (P : TrainState → Prop) (g : TrainState → List β)
    (delta : ℕ → String → List β)
    (hdl : dlOK phases dl)
    (hstepP : ∀ (e : ℕ) (ph : String) (st : TrainState) (batches : List Batch)
        (m0 : Metric) (mrest : List Metric), ph ∈ phases →
        assocFind dl ph = some batches →
        assocFind st.mets ph = some (m0 :: mrest) →
        P st → P (phaseStep cfg f e ph batches m0 mrest st))
    (hstepg : ∀ (e : ℕ) (ph : String) (st : TrainState) (batches : List Batch)
        (m0 : Metric) (mrest : List Metric), ph ∈ phases →
        assocFind dl ph = some batches →
        assocFind st.mets ph = some (m0 :: mrest) →
        P st → g (phaseStep cfg f e ph batches m0 mrest st) = g st ++ delta e ph) :
    ∀ (phs : List String), (∀ p ∈ phs, p ∈ phases) → ∀ (e : ℕ) (st : TrainState),
      metsOK phases st.mets → P st →
      ∃ st2, runPhaseList cfg f dl e phs st = .ok st2 ∧ P st2 ∧
        metsOK phases st2.mets ∧
        g st2 = g st ++ (phs.map fun ph => delta e ph).flatten
  | [], _, e, st, hOK, hP => ⟨st, rfl, hP, hOK, by simp⟩
  | ph :: rest, hsub, e, st, hOK, hP => by
      have hmem : ph ∈ phases := hsub ph (by simp)
      obtain ⟨bs, hbs⟩ := hdl ph hmem
      obtain ⟨m0, mrest, hm⟩ := hOK ph hmem
      have hrun := run_phase_eq cfg f dl e ph st bs m0 mrest hbs hm
      obtain ⟨st2, h1, h2, h3, h4⟩ :=
        runPhaseList_main cfg f dl phases P g delta hdl hstepP hstepg rest
          (fun p hp => hsub p (by simp [hp])) e
          (phaseStep cfg f e ph bs m0 mrest st)
          (metsOK_phaseStep phases cfg f e ph bs m0 mrest st hm hOK)
          (hstepP e ph st bs m0 mrest hmem hbs hm hP)
      refine ⟨st2, ?_, h2, h3, ?_⟩
      · rw [runPhaseList, hrun]
        exact h1
      · rw [h4, hstepg e ph st bs m0 mrest hmem hbs hm hP]
        simp [List.append_assoc]

theorem runEpochsFrom_main {β : Type} (cfg : Config) (f : FitOracle)
    (dl : List (String × List Batch)) (phases : List String)
    (P : TrainState → Prop) (g : TrainState → List β)
    (delta : ℕ → String → List β)
    (hdl : dlOK phases dl)
    (hstepP : ∀ (e : ℕ) (ph : String) (st : TrainState) (batches : List Batch)
        (m0 : Metric) (mrest : List Metric), ph ∈ phases →
        assocFind dl ph = some batches →
        assocFind st.mets ph = some (m0 :: mrest) →
        P st → P (phaseStep cfg f e ph batches m0 mrest st))
    (hstepg : ∀ (e : ℕ) (ph : String) (st : TrainState) (batches : List Batch)
        (m0 : Metric) (mrest : List Metric), ph ∈ phases →
        assocFind dl ph = some batches →
        assocFind st.mets ph = some (m0 :: mrest) →
        P st → g (phaseStep cfg f e ph batches m0 mrest st) = g st ++ delta e ph) :
    ∀ (n e : ℕ) (st : TrainState), metsOK phases st.mets → P st →
      ∃ st2, runEpochsFrom cfg f dl phases e n st = .ok st2 ∧ P st2 ∧
        metsOK phases st2.mets ∧
        g st2 = g st ++
          ((List.range' e n).map fun ep => (phases.map fun ph => delta ep ph).flatten).flatten
  | 0, e, st, hOK, hP => ⟨st, rfl, hP, hOK, by simp⟩
  | n + 1, e, st, hOK, hP => by
      obtain ⟨st1, h1, hP1, hOK1, hg1⟩ :=
        runPhaseList_main cfg f dl phases P g delta hdl hstepP hstepg phases
          (fun _ h => h) e st hOK hP
      obtain ⟨st2, h2, hP2, hOK2, hg2⟩ :=
        runEpochsFrom_main cfg f dl phases P g delta hdl hstepP hstepg n (e + 1)
          st1 hOK1 hP1
      refine ⟨st2, ?_, hP2, hOK2, ?_⟩
      · rw [runEpochsFrom, h1]
        exact h2
      · rw [hg2, hg1, List.range'_succ]
        simp [List.append_assoc]

/-- Master characterisation of `train` on the success path:
any invariant `P` preserved by the phase step holds of the final state,
and any accumulator `g` whose per-phase contribution is `delta` equals
the concatenation over all epochs and phases. -/
theorem train_main {β : Type} (cfg : Config) (f : FitOracle)
    (dl : List (String × List Batch)) (mets : List (String × List Metric))
    (wv ov : Bool) (P : TrainState → Prop) (g : TrainState → List β)
    (delta : ℕ → String → List β)
    (hdl : dlOK (trainPhases wv ov) dl)
    (hOK : metsOK (trainPhases wv ov) mets)
    (hstepP : ∀ (e : ℕ) (ph : String) (st : TrainState) (batches : List Batch)
        (m0 : Metric) (mrest : List Metric), ph ∈ trainPhases wv ov →
        assocFind dl ph = some batches →
        assocFind st.mets ph = some (m0 :: mrest) →
        P st → P (phaseStep cfg f e ph batches m0 mrest st))
    (hstepg : ∀ (e : ℕ) (ph : String) (st : TrainState) (batches : List Batch)
        (m0 : Metric) (mrest : List Metric), ph ∈ trainPhases wv ov →
        assocFind dl ph = some batches →
        assocFind st.mets ph = some (m0 :: mrest) →
        P st → g (phaseStep cfg f e ph batches m0 mrest st) = g st ++ delta e ph)
    (hP0 : P ⟨mets, [], [], []⟩) :
    ∃ st, train cfg f dl mets wv ov =
        .ok { st with events := st.events ++ (if !wv then [TMEvent.saveModel] else []) } ∧
      P st ∧
      g st = g ⟨mets, [], [], []⟩ ++
        ((List.range' 0 cfg.epochs).map fun ep =>
          ((trainPhases wv ov).map fun ph => delta ep ph).flatten).flatten := by
  obtain ⟨st, h1, hP, _, hg⟩ :=
    runEpochsFrom_main cfg f dl (trainPhases wv ov) P g delta hdl hstepP hstepg
      cfg.epochs 0 ⟨mets, [], [], []⟩ hOK hP0
  refine ⟨st, ?_, hP, hg⟩
  have hck : check_keys_from_dict (trainPhases wv ov) dl = true :=
    (check_keys_iff _ _).mpr fun k hk => hdl k hk
  rw [train]
  simp only [hck, h1]
  simp

/-! ### List helpers -/

theorem flatten_map_singleton {α β : Type} (fn : α → β) :
    ∀ l : List α, (l.map fun x => [fn x]).flatten = l.map fn
  | [] => rfl
  | _ :: rest => by simp [flatten_map_singleton fn rest]

theorem flatten_map_const_singleton {α β : Type} (x : β) :
    ∀ l : List α, (l.map fun _ => [x]).flatten = List.replicate l.length x
  | [] => rfl
  | _ :: rest => by
      simp [flatten_map_const_singleton x rest, List.replicate_succ]

/-! ### Concrete fixtures used by the witnesses -/

def mkMeter : AverageMeter := ⟨0, 0, [true]⟩

def mkMetric : Metric := ⟨"loss", true, fun l _ _ => l, mkMeter⟩

def cfg0 : Config := ⟨1, 5, 101 / 100, 0, false⟩

def f0 : FitOracle := fun _ _ _ => (1, [1 / 2])

def dl0 : List (String × List Batch) :=
  [("train", [(([1], [0]) : List ℚ × List ℚ)]),
   ("val", [(([2], [1]) : List ℚ × List ℚ)])]

def mets0 : List (String × List Metric) :=
  [("train", [mkMetric]), ("val", [mkMetric])]

/-! ### Claim C3 -/

/-- C3: `NNTrainManager.train` iterates exactly `cfg['epochs']` epochs,
and in every epoch processes exactly the phases determined by its
flags: `['train', 'val']` when `with_validate` is true and
`only_validate` is false, `['train']` when both are false, and `['val']`
whenever `only_validate` is true (it overrides `with_validate`). -/
theorem claim_C3 (cfg : Config) (f : FitOracle) (dl : List (String × List Batch))
    (mets : List (String × List Metric)) (wv ov : Bool)
    (hdl : dlOK (trainPhases wv ov) dl) (hOK : metsOK (trainPhases wv ov) mets) :
    ∃ r, train cfg f dl mets wv ov = .ok r ∧
      r.log.map (fun pl => (pl.epoch, pl.phase)) =
        ((List.range cfg.epochs).map fun e =>
          (if ov then ["val"] else if wv then ["train", "val"] else ["train"]).map
            fun ph => (e, ph)).flatten := by
  obtain ⟨st, hok, -, hg⟩ :=
    train_main cfg f dl mets wv ov (fun _ => True)
      (fun st => st.log.map fun pl => (pl.epoch, pl.phase))
      (fun e ph => [(e, ph)]) hdl hOK
      (fun _ _ _ _ _ _ _ _ _ _ => trivial)
      (fun e ph st batches m0 mrest _ _ _ _ => by
        simp [phaseStep, logEntryOf])
      trivial
  refine ⟨_, hok, ?_⟩
  simp only [hg]
  have hphases : trainPhases wv ov =
      (if ov then ["val"] else if wv then ["train", "val"] else ["train"]) := rfl
  rw [← List.range_eq_range', hphases]
  simp [flatten_map_singleton]

theorem claim_C3_witness :
    ∃ r, train cfg0 f0 dl0 mets0 true false = .ok r ∧
      r.log.map (fun pl => (pl.epoch, pl.phase)) =
        ((List.range cfg0.epochs).map fun e =>
          (if false then ["val"] else if true then ["train", "val"] else ["train"]).map
            fun ph => (e, ph)).flatten :=
  claim_C3 cfg0 f0 dl0 mets0 true false
    (by
      intro ph hph
      rcases (by simpa [trainPhases] using hph : ph = "train" ∨ ph = "val") with rfl | rfl
      · exact ⟨_, rfl⟩
      · exact ⟨_, rfl⟩)
    (by
      intro ph hph
      rcases (by simpa [trainPhases] using hph : ph = "train" ∨ ph = "val") with rfl | rfl
      · exact ⟨mkMetric, [], rfl⟩
      · exact ⟨mkMetric, [], rfl⟩)

/-! ### Claim C4 -/

/-- C4: during `train`, `anneal_lr` is invoked with
`cfg['learning_anneal']` exactly once at the end of every `'train'`
phase (so `cfg['epochs']` times in a full run with `only_validate`
false), and never at the end of a `'val'` phase. -/
theorem claim_C4 (cfg : Config) (f : FitOracle) (dl : List (String × List Batch))
    (mets : List (String × List Metric)) (wv : Bool)
    (hdl : dlOK (trainPhases wv false) dl)
    (hOK : metsOK (trainPhases wv false) mets) :
    (∀ (phase : String) (la : ℚ) (ms : List Metric),
      (update_by_epoch phase la ms).2.2.filter TMEvent.isAnneal =
        if phase = "train" then [TMEvent.annealLr la] else []) ∧
    ∃ r, train cfg f dl mets wv false = .ok r ∧
      r.events.filter TMEvent.isAnneal =
        List.replicate cfg.epochs (TMEvent.annealLr cfg.learning_anneal) := by
  refine ⟨update_by_epoch_filter_anneal, ?_⟩
  obtain ⟨st, hok, -, hg⟩ :=
    train_main cfg f dl mets wv false (fun _ => True)
      (fun st => st.events.filter TMEvent.isAnneal)
      (fun _ ph => if ph = "train" then [TMEvent.annealLr cfg.learning_anneal] else [])
      hdl hOK
      (fun _ _ _ _ _ _ _ _ _ _ => trivial)
      (fun e ph st batches m0 mrest _ _ _ _ => by
        simp only [phaseStep, logEntryOf, updOf, List.filter_append]
        rw [fitEventsFrom_filter_anneal, update_by_epoch_filter_anneal]
        simp)
      trivial
  refine ⟨_, hok, ?_⟩
  simp only [List.filter_append, hg]
  have h2 : ((trainPhases wv false).map fun ph =>
      if ph = "train" then [TMEvent.annealLr cfg.learning_anneal] else []).flatten =
      [TMEvent.annealLr cfg.learning_anneal] := by
    cases wv <;> simp [trainPhases]
  simp only [h2, flatten_map_const_singleton, List.length_range']
  cases wv <;> simp [TMEvent.isAnneal]

theorem claim_C4_witness :
    ∃ r, train cfg0 f0 dl0 mets0 true false = .ok r ∧
      r.events.filter TMEvent.isAnneal =
        List.replicate cfg0.epochs (TMEvent.annealLr cfg0.learning_anneal) :=
  (claim_C4 cfg0 f0 dl0 mets0 true
    (by
      intro ph hph
      rcases (by simpa [trainPhases] using hph : ph = "train" ∨ ph = "val") with rfl | rfl
      · exact ⟨_, rfl⟩
      · exact ⟨_, rfl⟩)
    (by
      intro ph hph
      rcases (by simpa [trainPhases] using hph : ph = "train" ∨ ph = "val") with rfl | rfl
      · exact ⟨mkMetric, [], rfl⟩
      · exact ⟨mkMetric, [], rfl⟩)).2

/-! ### Claim C10 -/

/-- C10: with `with_validate=False` and `only_validate=False`, `train`
saves the model unconditionally exactly once, as the very last action
after the final epoch completes, for every oracle and metric behaviour
(in particular regardless of whether any metric improved). -/
theorem claim_C10 (cfg : Config) (f : FitOracle) (dl : List (String × List Batch))
    (mets : List (String × List Metric))
    (hdl : dlOK (trainPhases false false) dl)
    (hOK : metsOK (trainPhases false false) mets) :
    ∃ r, train cfg f dl mets false false = .ok r ∧
      r.events.filter TMEvent.isSave = [TMEvent.saveModel] ∧
      r.events.getLast? = some TMEvent.saveModel := by
  obtain ⟨st, hok, -, hg⟩ :=
    train_main cfg f dl mets false false (fun _ => True)
      (fun st => st.events.filter TMEvent.isSave)
      (fun _ _ => []) hdl hOK
      (fun _ _ _ _ _ _ _ _ _ _ => trivial)
      (fun e ph st batches m0 mrest hmem _ _ _ => by
        have hph : ph = "train" := by simpa [trainPhases] using hmem
        subst hph
        simp only [phaseStep, logEntryOf, updOf, List.filter_append]
        rw [fitEventsFrom_filter_save,
          update_by_epoch_filter_save _ _ _ (by decide)]
        simp)
      trivial
  refine ⟨_, hok, ?_, ?_⟩
  · simp only [Bool.not_false, if_pos, List.filter_append, hg]
    simp [TMEvent.isSave]
  · simp

theorem claim_C10_witness :
    ∃ r, train cfg0 f0 dl0 mets0 false false = .ok r ∧
      r.events.filter TMEvent.isSave = [TMEvent.saveModel] ∧
      r.events.getLast? = some TMEvent.saveModel :=
  claim_C10 cfg0 f0 dl0 mets0
    (by
      intro ph hph
      rcases (by simpa [trainPhases] using hph : ph = "train") with rfl
      exact ⟨_, rfl⟩)
    (by
      intro ph hph
      rcases (by simpa [trainPhases] using hph : ph = "train") with rfl
      exact ⟨mkMetric, [], rfl⟩)

/-! ### Claim C1 -/

/-- The prediction list of the last phase whose `_update_by_epoch`
reported a best validation, `[]` if none did — what `best_val_pred`
holds at the end of `train`. -/
def lastBestValPred (log : List PhaseLog) : List ℚ :=
  match (log.filter fun pl => pl.best_val_flag).getLast? with
  | none => []
  | some pl => pl.pred_list

theorem lastBestValPred_append (log : List PhaseLog) (pl : PhaseLog) :
    lastBestValPred (log ++ [pl]) =
      if pl.best_val_flag then pl.pred_list else lastBestValPred log := by
  by_cases h : pl.best_val_flag = true
  · simp [lastBestValPred, List.filter_append, h]
  · simp [lastBestValPred, List.filter_append, h]

/-- C1: with `with_validate=True`, the model is checkpointed
(`save_model` appears among a phase's events) exactly when, at the end
of a `'val'` phase, some metric flagged `save_model` attains a new best
(`update_best` returns true); and whenever that happens `best_val_pred`
is set to a copy of that epoch's validation prediction list, so `train`
returns the prediction list of the last such epoch. -/
theorem claim_C1 (cfg : Config) (f : FitOracle) (dl : List (String × List Batch))
    (mets : List (String × List Metric))
    (hdl : dlOK (trainPhases true false) dl)
    (hOK : metsOK (trainPhases true false) mets) :
    (∀ (phase : String) (la : ℚ) (ms : List Metric),
      ((update_by_epoch phase la ms).1 = true ↔
        (phase = "val" ∧ ∃ m ∈ ms, m.save_model = true ∧
          (m.average_meter.update_best).1 = true)) ∧
      (TMEvent.saveModel ∈ (update_by_epoch phase la ms).2.2 ↔
        (phase = "val" ∧ ∃ m ∈ ms, m.save_model = true ∧
          (m.average_meter.update_best).1 = true))) ∧
    ∃ r, train cfg f dl mets true false = .ok r ∧
      r.events = (r.log.map PhaseLog.phaseEvents).flatten ∧
      (∀ pl ∈ r.log,
        (TMEvent.saveModel ∈ pl.phaseEvents ↔
          (pl.phase = "val" ∧ pl.best_val_flag = true)) ∧
        pl.best_val_flag =
          (update_by_epoch pl.phase cfg.learning_anneal pl.metricsSnap).1 ∧
        (pl.phase = "val" →
          pl.pred_list = predsFrom f pl.epoch "val" 0 ((assocFind dl "val").getD []))) ∧
      r.best_val_pred = lastBestValPred r.log := by
  refine ⟨fun phase la ms =>
    ⟨update_by_epoch_flag phase la ms, update_by_epoch_save_mem phase la ms⟩, ?_⟩
  obtain ⟨st, hok, hP, -⟩ :=
    train_main cfg f dl mets true false
      (fun st => st.events = (st.log.map PhaseLog.phaseEvents).flatten ∧
        st.best_val_pred = lastBestValPred st.log ∧
        ∀ pl ∈ st.log,
          (TMEvent.saveModel ∈ pl.phaseEvents ↔
            (pl.phase = "val" ∧ pl.best_val_flag = true)) ∧
          pl.best_val_flag =
            (update_by_epoch pl.phase cfg.learning_anneal pl.metricsSnap).1 ∧
          (pl.phase = "val" →
            pl.pred_list = predsFrom f pl.epoch "val" 0 ((assocFind dl "val").getD [])))
      (fun _ => ([] : List Unit)) (fun _ _ => []) hdl hOK
      (fun e ph st batches m0 mrest hmem hbs hm hP => by
        obtain ⟨hev, hbv, hlog⟩ := hP
        refine ⟨?_, ?_, ?_⟩
        · simp [phaseStep, hev]
        · simp only [phaseStep, logEntryOf, lastBestValPred_append, hbv]
        · intro pl hpl
          rcases (by simpa [phaseStep] using hpl :
              pl ∈ st.log ∨ pl = logEntryOf cfg f e ph batches m0 mrest) with h | h
          · exact hlog pl h
          · subst h
            have hsm := update_by_epoch_save_mem ph cfg.learning_anneal
              (updateTailMetrics (predsFrom f e ph 0 batches) (labelsFrom batches)
                (headMetricFrom f e ph 0 batches m0 :: mrest))
            have hfl := update_by_epoch_flag ph cfg.learning_anneal
              (updateTailMetrics (predsFrom f e ph 0 batches) (labelsFrom batches)
                (headMetricFrom f e ph 0 batches m0 :: mrest))
            refine ⟨?_, rfl, ?_⟩
            · show TMEvent.saveModel ∈
                fitEventsFrom e ph 0 batches ++ (updOf cfg f e ph batches m0 mrest).2.2 ↔ _
              constructor
              · intro hin
                rcases List.mem_append.mp hin with hin | hin
                · exact absurd hin (fitEventsFrom_save_not_mem e ph batches 0)
                · have hA := hsm.mp hin
                  exact ⟨hA.1, hfl.mpr hA⟩
              · rintro ⟨hvv, hflag⟩
                exact List.mem_append.mpr (Or.inr (hsm.mpr (hfl.mp hflag)))
            · intro hph
              show predsFrom f e ph 0 batches = _
              subst hph
              rw [hbs]
              rfl)
      (fun _ _ _ _ _ _ _ _ _ _ => rfl)
      ⟨rfl, rfl, by simp⟩
  obtain ⟨hev, hbv, hlog⟩ := hP
  refine ⟨_, hok, ?_, ?_, ?_⟩
  · simpa using hev
  · simpa using hlog
  · simpa using hbv

theorem claim_C1_witness :
    ∃ r, train cfg0 f0 dl0 mets0 true false = .ok r ∧
      r.events = (r.log.map PhaseLog.phaseEvents).flatten ∧
      (∀ pl ∈ r.log,
        (TMEvent.saveModel ∈ pl.phaseEvents ↔
          (pl.phase = "val" ∧ pl.best_val_flag = true)) ∧
        pl.best_val_flag =
          (update_by_epoch pl.phase cfg0.learning_anneal pl.metricsSnap).1 ∧
        (pl.phase = "val" →
          pl.pred_list = predsFrom f0 pl.epoch "val" 0 ((assocFind dl0 "val").getD []))) ∧
      r.best_val_pred = lastBestValPred r.log :=
  (claim_C1 cfg0 f0 dl0 mets0
    (by
      intro ph hph
      rcases (by simpa [trainPhases] using hph : ph = "train" ∨ ph = "val") with rfl | rfl
      · exact ⟨_, rfl⟩
      · exact ⟨_, rfl⟩)
    (by
      intro ph hph
      rcases (by simpa [trainPhases] using hph : ph = "train" ∨ ph = "val") with rfl | rfl
      · exact ⟨mkMetric, [], rfl⟩
      · exact ⟨mkMetric, [], rfl⟩)).2

/-! ### Claim C6 -/

theorem headMetricFrom_eq (f : FitOracle) (e : ℕ) (ph : String) :
    ∀ (bs : List Batch) (i : ℕ) (m : Metric),
      headMetricFrom f e ph i bs m =
        ⟨m.name, m.save_model, m.evalFn,
          ⟨m.average_meter.sum + (headValsFrom f e ph m.evalFn i bs).sum,
           m.average_meter.count + bs.length,
           m.average_meter.bestFlags⟩⟩
  | [], i, m => by simp [headMetricFrom, headValsFrom]
  | b :: rest, i, m => by
      rw [headMetricFrom, headMetricFrom_eq f e ph rest (i + 1)]
      simp [Metric.update, AverageMeter.update, headValsFrom, Metric.mk.injEq,
        AverageMeter.mk.injEq]
      exact ⟨by ring, by omega⟩

theorem updateTailMetrics_get_succ (pl ll : List ℚ) (m0 : Metric)
    (rest : List Metric) (i : ℕ) :
    (updateTailMetrics pl ll (m0 :: rest))[i + 1]? =
      (rest[i]?).map fun m => m.update 0 pl ll := by
  simp [updateTailMetrics]

/-- C6: at the end of every phase of every epoch of `train`, every
metric's epoch average meter is reset by `_update_by_epoch` (first
conjunct), so — starting from fresh meters — the meter observed at the
end of each phase's batch loop aggregates exactly the current epoch's
batches: the first metric holds the sum and count of this epoch's
per-batch values, and every other metric holds exactly the single
end-of-phase update. -/
theorem claim_C6 (cfg : Config) (f : FitOracle) (dl : List (String × List Batch))
    (mets : List (String × List Metric)) (wv ov : Bool)
    (hdl : dlOK (trainPhases wv ov) dl) (hOK : metsOK (trainPhases wv ov) mets)
    (hzero : ∀ ph ∈ trainPhases wv ov, ∀ ms, assocFind mets ph = some ms →
      ∀ m ∈ ms, m.average_meter.sum = 0 ∧ m.average_meter.count = 0) :
    (∀ (phase : String) (la : ℚ) (ms : List Metric),
      ∀ m ∈ (update_by_epoch phase la ms).2.1,
        m.average_meter.sum = 0 ∧ m.average_meter.count = 0) ∧
    ∃ r, train cfg f dl mets wv ov = .ok r ∧
      ∀ pl ∈ r.log,
        (∀ m0, pl.metricsSnap.head? = some m0 →
          m0.average_meter.count = ((assocFind dl pl.phase).getD []).length ∧
          m0.average_meter.sum =
            (headValsFrom f pl.epoch pl.phase m0.evalFn 0
              ((assocFind dl pl.phase).getD [])).sum) ∧
        (∀ (i : ℕ) (m : Metric), pl.metricsSnap[i + 1]? = some m →
          m.average_meter.count = 1 ∧
          m.average_meter.sum = m.evalFn 0 pl.pred_list pl.label_list) := by
  refine ⟨update_by_epoch_reset, ?_⟩
  obtain ⟨st, hok, hP, -⟩ :=
    train_main cfg f dl mets wv ov
      (fun st =>
        (∀ ph ∈ trainPhases wv ov, ∀ ms, assocFind st.mets ph = some ms →
          ∀ m ∈ ms, m.average_meter.sum = 0 ∧ m.average_meter.count = 0) ∧
        ∀ pl ∈ st.log,
          (∀ m0, pl.metricsSnap.head? = some m0 →
            m0.average_meter.count = ((assocFind dl pl.phase).getD []).length ∧
            m0.average_meter.sum =
              (headValsFrom f pl.epoch pl.phase m0.evalFn 0
                ((assocFind dl pl.phase).getD [])).sum) ∧
          (∀ (i : ℕ) (m : Metric), pl.metricsSnap[i + 1]? = some m →
            m.average_meter.count = 1 ∧
            m.average_meter.sum = m.evalFn 0 pl.pred_list pl.label_list))
      (fun _ => ([] : List Unit)) (fun _ _ => []) hdl hOK
      (fun e ph st batches m0 mrest hmem hbs hm hP => by
        obtain ⟨hz, hlog⟩ := hP
        have hzph := hz ph hmem (m0 :: mrest) hm
        constructor
        · intro ph' hph' ms' hms' m hmms'
          by_cases hpp : ph' = ph
          · subst hpp
            have := assocFind_assocUpdate_self st.mets ph'
              (updOf cfg f e ph' batches m0 mrest).2.1 _ hm
            have hms'2 : ms' = (updOf cfg f e ph' batches m0 mrest).2.1 := by
              have h2 : assocFind (phaseStep cfg f e ph' batches m0 mrest st).mets ph' =
                  some (updOf cfg f e ph' batches m0 mrest).2.1 := this
              rw [h2] at hms'
              exact (Option.some.injEq _ _ ▸ hms').symm
            subst hms'2
            exact update_by_epoch_reset ph' cfg.learning_anneal _ m hmms'
          · have h2 : assocFind (phaseStep cfg f e ph batches m0 mrest st).mets ph' =
                assocFind st.mets ph' :=
              assocFind_assocUpdate_ne st.mets ph ph' _ hpp
            rw [h2] at hms'
            exact hz ph' hph' ms' hms' m hmms'
        · intro pl hpl
          rcases (by simpa [phaseStep] using hpl :
              pl ∈ st.log ∨ pl = logEntryOf cfg f e ph batches m0 mrest) with h | h
          · exact hlog pl h
          · subst h
            constructor
            · intro mh hmh
              have hmh2 : headMetricFrom f e ph 0 batches m0 = mh := by
                simpa [logEntryOf, updateTailMetrics] using hmh
              subst hmh2
              have hz0 := hzph m0 (by simp)
              rw [headMetricFrom_eq]
              simp [logEntryOf, hbs, hz0.1, hz0.2]
            · intro i m hi
              have hi2 : ((mrest.map fun m2 =>
                  m2.update 0 (predsFrom f e ph 0 batches) (labelsFrom batches))[i]?) =
                  some m := by
                simpa [logEntryOf, updateTailMetrics] using hi
              rw [List.getElem?_map] at hi2
              rcases Option.map_eq_some'.mp hi2 with ⟨m', hm', rfl⟩
              have hmem' : m' ∈ mrest :=
                List.get?_mem (by simpa [List.get?_eq_getElem?] using hm')
              have hz' := hzph m' (by simp [hmem'])
              simp [Metric.update, AverageMeter.update, hz'.1, hz'.2, logEntryOf])
      (fun _ _ _ _ _ _ _ _ _ _ => rfl)
      ⟨hzero, by simp⟩
  exact ⟨_, hok, by simpa using hP.2⟩

theorem claim_C6_witness :
    ∃ r, train cfg0 f0 dl0 mets0 true false = .ok r ∧
      ∀ pl ∈ r.log,
        (∀ m0, pl.metricsSnap.head? = some m0 →
          m0.average_meter.count = ((assocFind dl0 pl.phase).getD []).length ∧
          m0.average_meter.sum =
            (headValsFrom f0 pl.epoch pl.phase m0.evalFn 0
              ((assocFind dl0 pl.phase).getD [])).sum) ∧
        (∀ (i : ℕ) (m : Metric), pl.metricsSnap[i + 1]? = some m →
          m.average_meter.count = 1 ∧
          m.average_meter.sum = m.evalFn 0 pl.pred_list pl.label_list) :=
  (claim_C6 cfg0 f0 dl0 mets0 true false
    (by
      intro ph hph
      rcases (by simpa [trainPhases] using hph : ph = "train" ∨ ph = "val") with rfl | rfl
      · exact ⟨_, rfl⟩
      · exact ⟨_, rfl⟩)
    (by
      intro ph hph
      rcases (by simpa [trainPhases] using hph : ph = "train" ∨ ph = "val") with rfl | rfl
      · exact ⟨mkMetric, [], rfl⟩
      · exact ⟨mkMetric, [], rfl⟩)
    (by
      intro ph hph ms hms m hm
      rcases (by simpa [trainPhases] using hph : ph = "train" ∨ ph = "val") with rfl | rfl <;>
        · simp [assocFind, mets0] at hms
          subst hms
          simp at hm
          subst hm
          exact ⟨rfl, rfl⟩)).2

/-! ### Claim C2 -/

theorem npReshapeRows_length (k : ℕ) (xs : List ℚ) :
    (npReshapeRows k xs).length = k := by
  simp [npReshapeRows]

theorem npReshapeRows_row_getD (k : ℕ) (xs : List ℚ) (r i : ℕ)
    (hi : i < xs.length / k) :
    ((xs.drop (r * (xs.length / k))).take (xs.length / k)).getD i 0 =
      xs.getD (r * (xs.length / k) + i) 0 := by
  rw [List.getD_eq_getElem?_getD, List.getD_eq_getElem?_getD,
    List.getElem?_take_of_lt hi, List.getElem?_drop]

theorem npMeanAxis0_cons (r0 : List ℚ) (tail : List (List ℚ)) :
    npMeanAxis0 (r0 :: tail) = (List.range r0.length).map fun i =>
      (((r0 :: tail).map fun row => row.getD i 0).sum) /
        (((r0 :: tail).length : ℕ) : ℚ) := rfl

theorem npMeanAxis0_npReshapeRows (k : ℕ) (xs : List ℚ) (hk : 1 ≤ k) :
    (npMeanAxis0 (npReshapeRows k xs)).length = xs.length / k ∧
    ∀ i < xs.length / k,
      (npMeanAxis0 (npReshapeRows k xs)).getD i 0 =
        (((List.range k).map fun r => xs.getD (r * (xs.length / k) + i) 0).sum) /
          (k : ℚ) := by
  obtain ⟨k', rfl⟩ : ∃ k', k = k' + 1 := ⟨k - 1, by omega⟩
  have hrows : npReshapeRows (k' + 1) xs =
      ((xs.drop (0 * (xs.length / (k' + 1)))).take (xs.length / (k' + 1))) ::
        ((List.range k').map Nat.succ).map fun r =>
          (xs.drop (r * (xs.length / (k' + 1)))).take (xs.length / (k' + 1)) := by
    rw [npReshapeRows, List.range_succ_eq_map, List.map_cons, List.map_map]
  have hr0len : ((xs.drop (0 * (xs.length / (k' + 1)))).take
      (xs.length / (k' + 1))).length = xs.length / (k' + 1) := by
    simp [Nat.div_le_self]
  constructor
  · rw [hrows, npMeanAxis0_cons, ← hrows]
    simp only [List.length_map, List.length_range]
    exact hr0len
  · intro i hi
    rw [hrows, npMeanAxis0_cons, ← hrows]
    rw [List.getD_eq_getElem?_getD, List.getElem?_map,
      List.getElem?_range (by rw [hr0len]; exact hi)]
    simp only [Option.map_some', Option.getD_some]
    congr 1
    · show ((npReshapeRows (k' + 1) xs).map fun row => row.getD i 0).sum = _
      congr 1
      rw [npReshapeRows, List.map_map]
      exact List.map_congr_left fun r _ =>
        npReshapeRows_row_getD (k' + 1) xs r i hi
    · show (((npReshapeRows (k' + 1) xs).length : ℕ) : ℚ) = _
      rw [npReshapeRows_length]

/-- C2: for `tta = k >= 1`, when `k` divides the total length `N` of the
predictions accumulated over the phase's dataloader (and the label
accumulator also has length `N`), `_predict` returns the list of length
`N/k` whose `i`-th entry is the arithmetic mean of the predictions at
positions `i, i + N/k, ..., i + (k-1)*N/k`, together with the first
`N/k` labels. -/
theorem claim_C2 (cfg : Config) (predictRes : PredictOracle)
    (dl : List (String × List Batch)) (phase : String) (batches : List Batch)
    (hbs : assocFind dl phase = some batches)
    (hk : 1 ≤ cfg.tta)
    (hdvd : cfg.tta ∣ (collectPredict predictRes batches 0).1.length)
    (hlab : (collectPredict predictRes batches 0).2.length =
      (collectPredict predictRes batches 0).1.length) :
    ∃ p l, predict_phase cfg predictRes dl phase = .ok (p, l) ∧
      p.length = (collectPredict predictRes batches 0).1.length / cfg.tta ∧
      (∀ i < (collectPredict predictRes batches 0).1.length / cfg.tta,
        p.getD i 0 =
          (((List.range cfg.tta).map fun r =>
            (collectPredict predictRes batches 0).1.getD
              (i + r * ((collectPredict predictRes batches 0).1.length / cfg.tta)) 0).sum) /
            (cfg.tta : ℚ)) ∧
      l = (collectPredict predictRes batches 0).2.take
        ((collectPredict predictRes batches 0).1.length / cfg.tta) := by
  have hck : check_keys_from_dict [phase] dl = true :=
    (check_keys_iff _ _).mpr (by
      intro kk hkk
      simp at hkk
      subst hkk
      exact ⟨_, hbs⟩)
  have hne : cfg.tta ≠ 0 := by omega
  have hmod : (collectPredict predictRes batches 0).1.length % cfg.tta = 0 := by
    obtain ⟨c, hc⟩ := hdvd
    rw [hc]
    exact Nat.mul_mod_right _ _
  obtain ⟨hlen, hget⟩ :=
    npMeanAxis0_npReshapeRows cfg.tta (collectPredict predictRes batches 0).1 hk
  refine ⟨npMeanAxis0 (npReshapeRows cfg.tta (collectPredict predictRes batches 0).1),
    (collectPredict predictRes batches 0).2.take
      ((collectPredict predictRes batches 0).2.length / cfg.tta), ?_, ?_, ?_, ?_⟩
  · rw [predict_phase, hck, hbs]
    simp [hne, hmod]
  · exact hlen
  · intro i hi
    rw [hget i hi]
    have hcomm : (List.map (fun r => (collectPredict predictRes batches 0).1.getD
        (r * ((collectPredict predictRes batches 0).1.length / cfg.tta) + i) 0)
        (List.range cfg.tta)) =
        (List.map (fun r => (collectPredict predictRes batches 0).1.getD
        (i + r * ((collectPredict predictRes batches 0).1.length / cfg.tta)) 0)
        (List.range cfg.tta)) :=
      List.map_congr_left fun r _ => by rw [Nat.add_comm]
    rw [hcomm]
  · rw [hlab]

theorem claim_C2_witness :
    ∃ p l, predict_phase ⟨1, 5, 101 / 100, 2, false⟩ (fun _ => [1, 3])
        [("test", [(([0, 0], [5, 6]) : List ℚ × List ℚ)])] "test" = .ok (p, l) ∧
      p.length = (collectPredict (fun _ => [1, 3])
        [(([0, 0], [5, 6]) : List ℚ × List ℚ)] 0).1.length / 2 ∧
      (∀ i < (collectPredict (fun _ => [1, 3])
          [(([0, 0], [5, 6]) : List ℚ × List ℚ)] 0).1.length / 2,
        p.getD i 0 =
          (((List.range 2).map fun r =>
            (collectPredict (fun _ => [1, 3])
              [(([0, 0], [5, 6]) : List ℚ × List ℚ)] 0).1.getD
              (i + r * ((collectPredict (fun _ => [1, 3])
                [(([0, 0], [5, 6]) : List ℚ × List ℚ)] 0).1.length / 2)) 0).sum) /
            (2 : ℚ)) ∧
      l = (collectPredict (fun _ => [1, 3])
        [(([0, 0], [5, 6]) : List ℚ × List ℚ)] 0).2.take
        ((collectPredict (fun _ => [1, 3])
          [(([0, 0], [5, 6]) : List ℚ × List ℚ)] 0).1.length / 2) :=
  claim_C2 ⟨1, 5, 101 / 100, 2, false⟩ (fun _ => [1, 3])
    [("test", [(([0, 0], [5, 6]) : List ℚ × List ℚ)])] "test"
    [(([0, 0], [5, 6]) : List ℚ × List ℚ)] rfl (by decide) (by decide) (by decide)

/-! ### Claim C7 -/

/-- C7: `_init_model_manager` selects the layer by model type: every
supported neural-network or pretrained name yields an `NNModelManager`,
and every supported classical-ML name yields an `MLModelManager`. -/
theorem claim_C7 :
    (∀ t ∈ supported_nn_models ++ supported_pretrained_model_keys,
      init_model_manager t = some ModelManagerKind.nnModelManager) ∧
    (∀ t ∈ supported_ml_models,
      init_model_manager t = some ModelManagerKind.mlModelManager) := by
  decide

theorem claim_C7_witness :
    ("cnn" ∈ supported_nn_models ++ supported_pretrained_model_keys ∧
      init_model_manager "cnn" = some ModelManagerKind.nnModelManager) ∧
    ("svm" ∈ supported_ml_models ∧
      init_model_manager "svm" = some ModelManagerKind.mlModelManager) :=
  ⟨⟨by decide, claim_C7.1 "cnn" (by decide)⟩,
   ⟨by decide, claim_C7.2 "svm" (by decide)⟩⟩

/-! ### Claim C9 -/

theorem runOps_fitted : ∀ (ops : List MLOp) (p : BaseMLPredictor),
    (runOps ops p).fitted =
      (p.fitted || ops.any fun o => o = MLOp.opFit || o = MLOp.opLoadModel)
  | [], p => by simp [runOps]
  | o :: rest, p => by
      rw [runOps, runOps_fitted rest]
      cases o <;>
        simp [applyOp, BaseMLPredictor.fit, BaseMLPredictor.load_model,
          BaseMLPredictor.save_model, BaseMLPredictor.predict_proba, Bool.or_assoc]

/-- C9: `BaseMLPredictor.predict` raises `NotFittedError` if and only
if neither `fit` nor `load_model` has been called since construction;
`fit` and `load_model` each set the fitted flag, and no other operation
changes it. -/
theorem claim_C9 (ops : List MLOp) :
    ((runOps ops BaseMLPredictor.init).predict = .error "NotFittedError" ↔
      ¬ ∃ o ∈ ops, o = MLOp.opFit ∨ o = MLOp.opLoadModel) ∧
    (∀ p : BaseMLPredictor,
      (BaseMLPredictor.fit p).fitted = true ∧
      (BaseMLPredictor.load_model p).fitted = true) ∧
    (∀ (p : BaseMLPredictor) (o : MLOp), o ≠ MLOp.opFit → o ≠ MLOp.opLoadModel →
      (applyOp p o).fitted = p.fitted) := by
  refine ⟨?_, fun p => ⟨rfl, rfl⟩, ?_⟩
  · rw [BaseMLPredictor.predict, runOps_fitted]
    by_cases h : (ops.any fun o => o = MLOp.opFit || o = MLOp.opLoadModel) = true
    · simp only [BaseMLPredictor.init, Bool.false_or, h, if_pos]
      simp only [List.any_eq_true, Bool.or_eq_true, decide_eq_true_eq] at h
      simp [h]
    · simp only [BaseMLPredictor.init, Bool.false_or, h, Bool.not_eq_true, if_neg]
      simp only [List.any_eq_true, Bool.or_eq_true, decide_eq_true_eq] at h
      simp [h]
  · intro p o h1 h2
    cases o <;> simp_all [applyOp, BaseMLPredictor.save_model,
      BaseMLPredictor.fit, BaseMLPredictor.load_model, BaseMLPredictor.predict_proba]

theorem claim_C9_witness :
    ((runOps [MLOp.opSaveModel] BaseMLPredictor.init).predict =
        .error "NotFittedError" ↔
      ¬ ∃ o ∈ [MLOp.opSaveModel], o = MLOp.opFit ∨ o = MLOp.opLoadModel) ∧
    (applyOp ⟨false⟩ MLOp.opPredictProba).fitted =
      (⟨false⟩ : BaseMLPredictor).fitted :=
  ⟨(claim_C9 [MLOp.opSaveModel]).1,
   (claim_C9 []).2.2 ⟨false⟩ MLOp.opPredictProba (by decide) (by decide)⟩

/-! ### Claim C5 -/

/-- C5: the claim describes the intended retraining continuation, but
`retrain` as written crashes on every input: with any non-empty metrics
dictionary, `for metric in self.metrics:` iterates over the dict's
string keys and `metric.add_average_meter(...)` raises
`AttributeError`; even with an empty dict the per-epoch update calls
`self._update_by_epoch(phase, epoch, cfg['learning_anneal'])` with one
positional argument too many (`TypeError`).  This theorem evaluates the
embedded `retrain` at a concrete failing input. -/
theorem claim_C5_code_bug :
    retrain cfg0 dl0 mets0 = .error "AttributeError" := rfl

/-! ### Claim C8: `dump_dict` and the JSON round trip

`dump_dict(path, dict_)` (ml/utils/utils.py, lines 9-11) writes
`json.dump(dict_, f, indent=4)` to `path`.  We embed the
JSON-serializable Python values the utility handles (strings, ints,
finite floats, booleans, `None`, lists, tuples and dicts), Python's
`json.dump` with `indent=4` and `ensure_ascii=True` (the defaults),
and `json.load`.  Python coerces non-string dict keys when dumping
(`1` becomes `"1"`, `True` becomes `"true"`, `None` becomes `"null"`),
which is what refutes the claim as stated; tuples are serialized as
JSON arrays, so they come back as lists; a `NaN` float never compares
equal to its parsed copy (`float('nan') != float('nan')`), so those
three families are excluded from the amended round trip.

A finite Python float is embedded as the decimal `m * 10 ^ e` that
CPython's `repr` prints for it: `repr` emits the shortest decimal that
`float()` reads back to the same double (the `float_repr_style
'short'` contract), so finite floats are in bijection with these
canonical decimals (`m` with no trailing zero, `0.0` as `m = 0, e =
0`), `json.dump`'s `floatstr` prints exactly that decimal in `repr`'s
layout, and `json.load`'s `parse_float=float` recovers it from the
printed token.  The embedding's decimal type is a superset of the
doubles (it carries decimals beyond the double range); the round trip
is proved on the whole superset, so in particular on every dict of
actual floats.  Non-finite floats (`NaN`, `Infinity`, `-Infinity`) are
written as those non-JSON tokens and are outside the embedding.  The
parser is only required to be faithful on `json.dump` outputs (it
parses number tokens leniently and reports `none` on lone surrogate
escapes, which `json.dump` never emits). -/

/-- A Python dict key from the types `json.dump` accepts. -/
inductive PyKey where
  | kstr (s : List Char)
  | kint (i : ℤ)
  | kbool (b : Bool)
  | knone
  deriving DecidableEq

/-- A JSON-serializable Python value.  A finite float is the decimal
`m * 10 ^ e` denoted by its shortest `repr` (see the section
comment). -/
inductive PyVal where
  | pstr (s : List Char)
  | pint (i : ℤ)
  | pfloat (m : ℤ) (e : ℤ)
  | pbool (b : Bool)
  | pnone
  | plist (xs : List PyVal)
  | ptuple (xs : List PyVal)
  | pdict (entries : List (PyKey × PyVal))

/-- The opening brace character. -/
def lbrace : Char := Char.ofNat 123

/-- The closing brace character. -/
def rbrace : Char := Char.ofNat 125

/-- Decimal digits of a natural number, embedding Python `str(n)`. -/
def natToChars (n : ℕ) : List Char :=
  if h : n < 10 then [Char.ofNat (48 + n)]
  else natToChars (n / 10) ++ [Char.ofNat (48 + n % 10)]
  termination_by n
  decreasing_by exact Nat.div_lt_self (by omega) (by omega)

/-- Python `str(i)` for an int. -/
def intToChars (i : ℤ) : List Char :=
  if i < 0 then '-' :: natToChars i.natAbs else natToChars i.toNat

/-- Python `str()` coercion `json.dump` applies to a dict key. -/
def keyToString : PyKey → List Char
  | .kstr s => s
  | .kint i => intToChars i
  | .kbool true => "true".data
  | .kbool false => "false".data
  | .knone => "null".data

/-- The digits of the exponent field of a float `repr`, zero-padded to
at least two digits as CPython's `format_float_short` does
(`repr(1e-05)` is `'1e-05'`, `repr(1e+100)` is `'1e+100'`). -/
def expDigits (e : ℤ) : List Char :=
  if (natToChars e.natAbs).length < 2 then '0' :: natToChars e.natAbs
  else natToChars e.natAbs

/-- The exponent field of a float `repr`: `e`, an explicit sign, and
the padded digits. -/
def expChars (e : ℤ) : List Char :=
  'e' :: (if e < 0 then '-' else '+') :: expDigits e

/-- The `repr` layout of the positive decimal `a * 10 ^ e` (`a > 0`),
following CPython's `format_float_short` in `repr` mode: with `decpt`
the position of the decimal point relative to the digit string of `a`,
scientific notation when `decpt <= -4` or `decpt > 16`, otherwise
leading `0.00...`, an inserted point, or trailing zeros plus `.0`. -/
def floatLayout (a : ℕ) (e : ℤ) : List Char :=
  if e + (natToChars a).length ≤ -4 ∨ 16 < e + (natToChars a).length then
    match natToChars a with
    | [] => []
    | d :: tl =>
        if tl = [] then d :: expChars (e + (natToChars a).length - 1)
        else d :: '.' :: (tl ++ expChars (e + (natToChars a).length - 1))
  else if e + (natToChars a).length ≤ 0 then
    '0' :: '.' :: (List.replicate (-(e + (natToChars a).length)).toNat '0' ++
      natToChars a)
  else if ((natToChars a).length : ℤ) ≤ e + (natToChars a).length then
    natToChars a ++
      List.replicate (e + (natToChars a).length - (natToChars a).length).toNat '0' ++
      ['.', '0']
  else
    (natToChars a).take (e + (natToChars a).length).toNat ++
      '.' :: (natToChars a).drop (e + (natToChars a).length).toNat

/-- Python `repr` of the finite float `m * 10 ^ e` (`json.dump`'s
`floatstr` prints `float.__repr__` for finite floats). -/
def floatRepr (m e : ℤ) : List Char :=
  if m = 0 then ['0', '.', '0']
  else if m < 0 then '-' :: floatLayout m.natAbs e
  else floatLayout m.natAbs e

/-- The canonical-decimal condition: `repr` digits never end in a
zero (it prints the shortest round-tripping decimal), and `0.0` is
`m = 0, e = 0`.  Every finite Python float denotes exactly one
canonical decimal. -/
def floatCanon (m e : ℤ) : Bool :=
  if m = 0 then decide (e = 0) else decide (m % 10 ≠ 0)

/-- Lower-case hex digit. -/
def hexDigitChar (n : ℕ) : Char :=
  if n < 10 then Char.ofNat (48 + n) else Char.ofNat (87 + n)

/-- Four-digit hex rendering used by `\uXXXX` escapes. -/
def hex4 (n : ℕ) : List Char :=
  [hexDigitChar (n / 4096 % 16), hexDigitChar (n / 256 % 16),
   hexDigitChar (n / 16 % 16), hexDigitChar (n % 16)]

/-- Python `json`'s `ensure_ascii` escaping of one character:
backslash, quote and the five short escapes; printable ASCII kept
literal; everything else as `\uXXXX`, with a surrogate pair for
characters beyond the Basic Multilingual Plane. -/
def escapeChar (c : Char) : List Char :=
  if c = '\\' then ['\\', '\\']
  else if c = '"' then ['\\', '"']
  else if c.toNat = 8 then ['\\', 'b']
  else if c.toNat = 9 then ['\\', 't']
  else if c.toNat = 10 then ['\\', 'n']
  else if c.toNat = 12 then ['\\', 'f']
  else if c.toNat = 13 then ['\\', 'r']
  else if 32 ≤ c.toNat ∧ c.toNat ≤ 126 then [c]
  else if c.toNat < 65536 then '\\' :: 'u' :: hex4 c.toNat
  else
    ('\\' :: 'u' :: hex4 (55296 + (c.toNat - 65536) / 1024)) ++
      ('\\' :: 'u' :: hex4 (56320 + (c.toNat - 65536) % 1024))

/-- A JSON string literal: quote, escaped characters, quote. -/
def encodeString (s : List Char) : List Char :=
  '"' :: ((s.map escapeChar).flatten ++ ['"'])

/-- `n` spaces of indentation. -/
def spaces (n : ℕ) : List Char := List.replicate n ' '

mutual

/-- `json.dump(v, f, indent=4)` at indentation level `ind` (in spaces):
primitives inline; non-empty containers put every item on its own line
indented by `ind + 4` and the closing bracket on a line indented by
`ind`. -/
def encodeVal (ind : ℕ) : PyVal → List Char
  | .pstr s => encodeString s
  | .pint i => intToChars i
  | .pfloat m e => floatRepr m e
  | .pbool true => "true".data
  | .pbool false => "false".data
  | .pnone => "null".data
  | .plist [] => ['[', ']']
  | .plist (x :: rest) =>
      ('[' :: '\n' :: spaces (ind + 4)) ++ encodeVal (ind + 4) x ++
        encodeListItems (ind + 4) rest ++ ('\n' :: spaces ind) ++ [']']
  | .ptuple [] => ['[', ']']
  | .ptuple (x :: rest) =>
      ('[' :: '\n' :: spaces (ind + 4)) ++ encodeVal (ind + 4) x ++
        encodeListItems (ind + 4) rest ++ ('\n' :: spaces ind) ++ [']']
  | .pdict [] => [lbrace, rbrace]
  | .pdict ((k, v) :: rest) =>
      (lbrace :: '\n' :: spaces (ind + 4)) ++ encodeString (keyToString k) ++
        (':' :: ' ' :: encodeVal (ind + 4) v) ++
        encodeDictItems (ind + 4) rest ++ ('\n' :: spaces ind) ++ [rbrace]

/-- The remaining list items, each preceded by `,\n` and indentation. -/
def encodeListItems (ind : ℕ) : List PyVal → List Char
  | [] => []
  | x :: rest =>
      (',' :: '\n' :: spaces ind) ++ encodeVal ind x ++ encodeListItems ind rest

/-- The remaining dict entries, each preceded by `,\n`, indentation,
the encoded key, and `: `. -/
def encodeDictItems (ind : ℕ) : List (PyKey × PyVal) → List Char
  | [] => []
  | (k, v) :: rest =>
      (',' :: '\n' :: spaces ind) ++ encodeString (keyToString k) ++
        (':' :: ' ' :: encodeVal ind v) ++ encodeDictItems ind rest

end

/-- The file content `json.dump(v, f, indent=4)` writes. -/
def json_dumps (v : PyVal) : List Char := encodeVal 0 v

/-- `dump_dict` (ml/utils/utils.py, lines 9-11): open `path` for
writing and `json.dump(dict_, f, indent=4)`; modelled as the pair of
the path and the file content written there. -/
def dump_dict (path : String) (dict_ : PyVal) : String × List Char :=
  (path, json_dumps dict_)

/-- JSON whitespace. -/
def wsChar (c : Char) : Bool :=
  c = ' ' || c = '\n' || c = '\t' || c = '\r'

/-- Skip leading JSON whitespace. -/
def skipWs : List Char → List Char
  | [] => []
  | c :: rest => if wsChar c then skipWs rest else c :: rest

/-- Value of a hex digit. -/
def hexVal (c : Char) : Option ℕ :=
  if 48 ≤ c.toNat ∧ c.toNat ≤ 57 then some (c.toNat - 48)
  else if 97 ≤ c.toNat ∧ c.toNat ≤ 102 then some (c.toNat - 87)
  else if 65 ≤ c.toNat ∧ c.toNat ≤ 70 then some (c.toNat - 55)
  else none

/-- Read four hex digits. -/
def readHex4 : List Char → Option (ℕ × List Char)
  | a :: b :: c :: d :: rest =>
      match hexVal a, hexVal b, hexVal c, hexVal d with
      | some va, some vb, some vc, some vd =>
          some (va * 4096 + vb * 256 + vc * 16 + vd, rest)
      | _, _, _, _ => none
  | _ => none

/-- Decode one short escape character (the char after the backslash,
`u` excluded). -/
def shortEscape (e : Char) : Option Char :=
  if e = '"' then some '"'
  else if e = '\\' then some '\\'
  else if e = '/' then some '/'
  else if e = 'b' then some (Char.ofNat 8)
  else if e = 'f' then some (Char.ofNat 12)
  else if e = 'n' then some (Char.ofNat 10)
  else if e = 'r' then some (Char.ofNat 13)
  else if e = 't' then some (Char.ofNat 9)
  else none

/-- Consume one unit of a JSON string body: `some (none, rest)` when the
closing quote is reached, `some (some c, rest)` for one decoded
character (escapes and surrogate pairs included), `none` on malformed
input (including raw control characters, as the strict decoder, and
lone surrogate escapes, which `json.dump` never emits). -/
def readStringChar : List Char → Option (Option Char × List Char)
  | [] => none
  | c :: rest =>
      if c = '"' then some (none, rest)
      else if c = '\\' then
        match rest with
        | [] => none
        | e :: rest2 =>
            if e = 'u' then
              match readHex4 rest2 with
              | none => none
              | some (n, rest3) =>
                  if 55296 ≤ n ∧ n ≤ 56319 then
                    match rest3 with
                    | b1 :: b2 :: rest4 =>
                        if b1 = '\\' ∧ b2 = 'u' then
                          match readHex4 rest4 with
                          | some (n2, rest5) =>
                              if 56320 ≤ n2 ∧ n2 ≤ 57343 then
                                some (some (Char.ofNat
                                  (65536 + (n - 55296) * 1024 + (n2 - 56320))), rest5)
                              else none
                          | none => none
                        else none
                    | _ => none
                  else if 56320 ≤ n ∧ n ≤ 57343 then none
                  else some (some (Char.ofNat n), rest3)
            else
              match shortEscape e with
              | some ch => some (some ch, rest2)
              | none => none
      else if c.toNat < 32 then none
      else some (some c, rest)

/-- Parse a JSON string body after the opening quote, returning the
decoded characters and the input after the closing quote.  `fuel`
bounds the number of decoded characters; callers pass the input length,
which always suffices since every decoded character consumes at least
one input character. -/
def parseStringBody : ℕ → List Char → Option (List Char × List Char)
  | 0, _ => none
  | fuel + 1, xs =>
      match readStringChar xs with
      | none => none
      | some (none, rest) => some ([], rest)
      | some (some c, rest) =>
          match parseStringBody fuel rest with
          | some (s, r) => some (c :: s, r)
          | none => none

/-- ASCII digit test. -/
def isDigitCh (c : Char) : Bool := 48 ≤ c.toNat && c.toNat ≤ 57

/-- Consume a run of digits, accumulating their value and counting
them (the count scales the fractional part of a float token). -/
def parseDigitsCnt (acc cnt : ℕ) : List Char → ℕ × ℕ × List Char
  | [] => (acc, cnt, [])
  | c :: rest =>
      if isDigitCh c then parseDigitsCnt (acc * 10 + (c.toNat - 48)) (cnt + 1) rest
      else (acc, cnt, c :: rest)

/-- Strip factors of ten from a decimal mantissa into the exponent
(`float()` on two tokens yields equal floats exactly when the tokens
denote the same decimal; stripping reaches the canonical form). -/
def stripTens : ℕ → ℤ → ℤ → ℤ × ℤ
  | 0, m, e => (m, e)
  | fuel + 1, m, e =>
      if m % 10 = 0 then stripTens fuel (m / 10) (e + 1) else (m, e)

/-- Canonical form of the decimal `m * 10 ^ e`. -/
def canonDec (m e : ℤ) : ℤ × ℤ :=
  if m = 0 then (0, 0) else stripTens m.natAbs m e

/-- Parse the optional fractional part of a number token: a point
followed by at least one digit, returning value, digit count and
remainder. -/
def parseFracOpt : List Char → Option (ℕ × ℕ × List Char)
  | c :: c2 :: rest =>
      if c = '.' ∧ isDigitCh c2 then
        some (parseDigitsCnt (c2.toNat - 48) 1 rest)
      else none
  | _ => none

/-- Parse the optional exponent part of a number token: `e` or `E`, an
optional sign, digits. -/
def parseExpOpt : List Char → Option (ℤ × List Char)
  | [] => none
  | c :: rest =>
      if c = 'e' ∨ c = 'E' then
        match rest with
        | [] => some (0, [])
        | c2 :: r2 =>
            if c2 = '+' then
              some (((parseDigitsCnt 0 0 r2).1 : ℤ), (parseDigitsCnt 0 0 r2).2.2)
            else if c2 = '-' then
              some (-((parseDigitsCnt 0 0 r2).1 : ℤ), (parseDigitsCnt 0 0 r2).2.2)
            else
              some (((parseDigitsCnt 0 0 (c2 :: r2)).1 : ℤ),
                (parseDigitsCnt 0 0 (c2 :: r2)).2.2)
      else none

/-- Assemble a number from its parsed integer part and the input after
it: an int when neither fraction nor exponent follows (Python's
scanner applies `int` to the token), otherwise the float denoted by
the token (Python applies `float`, and equal doubles are equal
canonical decimals). -/
def mkNum (sign : ℤ) (intval : ℕ) (xs : List Char) : PyVal × List Char :=
  match parseFracOpt xs with
  | some (fv, fc, r1) =>
      (match parseExpOpt r1 with
      | some (ex, r2) =>
          (.pfloat
            (canonDec (sign * ((intval : ℤ) * (10 : ℤ) ^ fc + (fv : ℤ)))
              (ex - (fc : ℤ))).1
            (canonDec (sign * ((intval : ℤ) * (10 : ℤ) ^ fc + (fv : ℤ)))
              (ex - (fc : ℤ))).2, r2)
      | none =>
          (.pfloat
            (canonDec (sign * ((intval : ℤ) * (10 : ℤ) ^ fc + (fv : ℤ)))
              (-(fc : ℤ))).1
            (canonDec (sign * ((intval : ℤ) * (10 : ℤ) ^ fc + (fv : ℤ)))
              (-(fc : ℤ))).2, r1))
  | none =>
      match parseExpOpt xs with
      | some (ex, r2) =>
          (.pfloat (canonDec (sign * intval) ex).1 (canonDec (sign * intval) ex).2,
            r2)
      | none => (.pint (sign * intval), xs)

/-- Parse a JSON number token (an optional minus sign, digits, an
optional fraction, an optional exponent).  `json.dump` never emits
leading zeros, so the parser needs no stricter grammar on encoder
outputs. -/
def parseNumTok : List Char → Option (PyVal × List Char)
  | [] => none
  | c :: rest =>
      if c = '-' then
        match rest with
        | [] => none
        | c2 :: rest2 =>
            if isDigitCh c2 then
              some (mkNum (-1) (parseDigitsCnt (c2.toNat - 48) 0 rest2).1
                (parseDigitsCnt (c2.toNat - 48) 0 rest2).2.2)
            else none
      else if isDigitCh c then
        some (mkNum 1 (parseDigitsCnt (c.toNat - 48) 0 rest).1
          (parseDigitsCnt (c.toNat - 48) 0 rest).2.2)
      else none

mutual

/-- Parse one JSON value after skipping whitespace.  `fuel` bounds the
total number of container items; `json_loads` passes the input length,
which always suffices. -/
def parseVal : ℕ → List Char → Option (PyVal × List Char)
  | 0, _ => none
  | fuel + 1, xs =>
      match skipWs xs with
      | [] => none
      | c :: rest =>
          if c = '"' then
            match parseStringBody rest.length rest with
            | some (s, r) => some (.pstr s, r)
            | none => none
          else if c = '[' then
            match skipWs rest with
            | [] => none
            | c2 :: rest2 =>
                if c2 = ']' then some (.plist [], rest2)
                else
                  match parseListLoop fuel rest with
                  | some (vs, r) => some (.plist vs, r)
                  | none => none
          else if c = lbrace then
            match skipWs rest with
            | [] => none
            | c2 :: rest2 =>
                if c2 = rbrace then some (.pdict [], rest2)
                else
                  match parseDictLoop fuel rest with
                  | some (es, r) => some (.pdict es, r)
                  | none => none
          else if c = 't' then
            match rest with
            | 'r' :: 'u' :: 'e' :: r => some (.pbool true, r)
            | _ => none
          else if c = 'f' then
            match rest with
            | 'a' :: 'l' :: 's' :: 'e' :: r => some (.pbool false, r)
            | _ => none
          else if c = 'n' then
            match rest with
            | 'u' :: 'l' :: 'l' :: r => some (.pnone, r)
            | _ => none
          else parseNumTok (c :: rest)
  termination_by fuel xs => (fuel, 0)

/-- Parse the items of a non-empty JSON array (after the `[`),
consuming the closing `]`. -/
def parseListLoop : ℕ → List Char → Option (List PyVal × List Char)
  | 0, _ => none
  | fuel + 1, xs =>
      match parseVal (fuel + 1) xs with
      | none => none
      | some (v, r1) =>
          match skipWs r1 with
          | ',' :: r2 =>
              match parseListLoop fuel r2 with
              | some (vs, r3) => some (v :: vs, r3)
              | none => none
          | ']' :: r2 => some ([v], r2)
          | _ => none
  termination_by fuel xs => (fuel, 1)

/-- Parse the entries of a non-empty JSON object (after the `{`),
consuming the closing `}`.  Object keys are always strings. -/
def parseDictLoop : ℕ → List Char → Option (List (PyKey × PyVal) × List Char)
  | 0, _ => none
  | fuel + 1, xs =>
      match skipWs xs with
      | '"' :: r0 =>
          match parseStringBody r0.length r0 with
          | none => none
          | some (k, r1) =>
              match skipWs r1 with
              | ':' :: r2 =>
                  match parseVal (fuel + 1) r2 with
                  | none => none
                  | some (v, r3) =>
                      match skipWs r3 with
                      | ',' :: r4 =>
                          match parseDictLoop fuel r4 with
                          | some (es, r5) => some ((PyKey.kstr k, v) :: es, r5)
                          | none => none
                      | cb :: r4 =>
                          if cb = rbrace then some ([(PyKey.kstr k, v)], r4)
                          else none
                      | [] => none
              | _ => none
      | _ => none
  termination_by fuel xs => (fuel, 2)

end

/-- `json.load` on the written file: parse one value and require only
whitespace to remain. -/
def json_loads (s : List Char) : Option PyVal :=
  match parseVal (s.length + 1) s with
  | some (v, r) => if skipWs r = [] then some v else none
  | none => none

mutual

/-- Total node count of a value, bounding the parser fuel it needs. -/
def sizeVal : PyVal → ℕ
  | .pstr _ => 1
  | .pint _ => 1
  | .pfloat _ _ => 1
  | .pbool _ => 1
  | .pnone => 1
  | .plist xs => sizeItems xs + 1
  | .ptuple xs => sizeItems xs + 1
  | .pdict es => sizeEntries es + 1

def sizeItems : List PyVal → ℕ
  | [] => 0
  | v :: rest => sizeVal v + sizeItems rest + 1

def sizeEntries : List (PyKey × PyVal) → ℕ
  | [] => 0
  | (_, v) :: rest => sizeVal v + sizeEntries rest + 1

end

/-- Whether a key is a Python string. -/
def keyIsStr : PyKey → Bool
  | .kstr _ => true
  | _ => false

/-- Pairwise distinctness of key strings (Python dicts cannot hold
duplicate keys, so only such entry lists represent dicts). -/
def keysDistinct : List (List Char) → Bool
  | [] => true
  | s :: rest => !(rest.contains s) && keysDistinct rest

mutual

/-- The values representable as Python dict/list/primitive data whose
dict keys are all strings and distinct at every nesting level, whose
floats are canonical finite decimals, and which contain no tuples —
the fragment on which dump-then-load is claimed (after amendment) to
be the identity.  Tuples are excluded because `json.dump` writes them
as JSON arrays, so they parse back as lists (`tupleToList_roundtrip`
below). -/
def canonicalVal : PyVal → Bool
  | .pstr _ => true
  | .pint _ => true
  | .pfloat m e => floatCanon m e
  | .pbool _ => true
  | .pnone => true
  | .plist xs => canonicalItems xs
  | .ptuple _ => false
  | .pdict es =>
      (es.all fun e => keyIsStr e.1) &&
        keysDistinct (es.map fun e => keyToString e.1) &&
        canonicalEntries es

def canonicalItems : List PyVal → Bool
  | [] => true
  | x :: rest => canonicalVal x && canonicalItems rest

def canonicalEntries : List (PyKey × PyVal) → Bool
  | [] => true
  | (_, v) :: rest => canonicalVal v && canonicalEntries rest

end

mutual

/-- Replace every tuple by the list `json.dump` writes it as (the
encoder serializes tuples and lists identically, so this is what the
parse of a dump of a tuple-bearing value returns). -/
def tupleToList : PyVal → PyVal
  | .pstr s => .pstr s
  | .pint i => .pint i
  | .pfloat m e => .pfloat m e
  | .pbool b => .pbool b
  | .pnone => .pnone
  | .plist xs => .plist (tupleToListItems xs)
  | .ptuple xs => .plist (tupleToListItems xs)
  | .pdict es => .pdict (tupleToListEntries es)

def tupleToListItems : List PyVal → List PyVal
  | [] => []
  | x :: rest => tupleToList x :: tupleToListItems rest

def tupleToListEntries : List (PyKey × PyVal) → List (PyKey × PyVal)
  | [] => []
  | (k, v) :: rest => (k, tupleToList v) :: tupleToListEntries rest

end

/-! ### Character and whitespace lemmas -/

theorem char_toNat_ofNat (n : ℕ) (h : Nat.isValidChar n) :
    (Char.ofNat n).toNat = n := by
  unfold Char.ofNat
  split
  · rfl
  · rename_i hv
    exact absurd h hv

theorem char_valid_ranges (c : Char) :
    c.toNat < 55296 ∨ (57343 < c.toNat ∧ c.toNat < 1114112) := by
  rcases c.valid with h | ⟨h1, h2⟩
  · left
    exact_mod_cast h
  · right
    constructor
    · exact_mod_cast h1
    · exact_mod_cast h2

theorem char_eq_ofNat_of_toNat (c : Char) (n : ℕ) (h : c.toNat = n) :
    c = Char.ofNat n := by
  rw [← Char.ofNat_toNat c, h]

theorem skipWs_cons_not_ws (c : Char) (xs : List Char) (h : wsChar c = false) :
    skipWs (c :: xs) = c :: xs := by
  simp [skipWs, h]

theorem skipWs_spaces (n : ℕ) : ∀ xs : List Char,
    skipWs (spaces n ++ xs) = skipWs xs := by
  induction n with
  | zero => intro xs; simp [spaces]
  | succ n ih =>
      intro xs
      show skipWs (List.replicate (n + 1) ' ' ++ xs) = skipWs xs
      rw [List.replicate_succ, List.cons_append]
      show skipWs (' ' :: (List.replicate n ' ' ++ xs)) = skipWs xs
      rw [skipWs, if_pos (by decide)]
      exact ih xs

theorem skipWs_nl_spaces (n : ℕ) (xs : List Char) :
    skipWs (('\n' :: spaces n) ++ xs) = skipWs xs := by
  rw [List.cons_append, skipWs, if_pos (by decide)]
  exact skipWs_spaces n xs

theorem skipWs_space (xs : List Char) : skipWs (' ' :: xs) = skipWs xs := by
  rw [skipWs, if_pos (by decide)]

/-! ### Digit and integer lemmas -/

/-- The continuation after a number token must not begin with a digit. -/
def noDigitHead : List Char → Prop
  | [] => True
  | c :: _ => isDigitCh c = false

theorem digit_char_toNat (n : ℕ) (h : n < 10) :
    (Char.ofNat (48 + n)).toNat = 48 + n :=
  char_toNat_ofNat _ (Or.inl (by omega))

theorem isDigitCh_digit (n : ℕ) (h : n < 10) :
    isDigitCh (Char.ofNat (48 + n)) = true := by
  simp only [isDigitCh, digit_char_toNat n h, Bool.and_eq_true, decide_eq_true_eq]
  omega

theorem digit_head_props (c : Char) (h : isDigitCh c = true) :
    wsChar c = false ∧ c ≠ '"' ∧ c ≠ '[' ∧ c ≠ lbrace ∧ c ≠ 't' ∧ c ≠ 'f' ∧
      c ≠ 'n' ∧ c ≠ '-' ∧ c ≠ ']' ∧ c ≠ rbrace ∧ c ≠ ',' ∧ c ≠ ':' := by
  have hn : 48 ≤ c.toNat ∧ c.toNat ≤ 57 := by
    simpa [isDigitCh] using h
  have hne : ∀ d : Char, c.toNat ≠ d.toNat → c ≠ d := fun d hd he => hd (he ▸ rfl)
  have hb : lbrace.toNat = 123 := rfl
  have hb2 : rbrace.toNat = 125 := rfl
  have hq : ('"').toNat = 34 := rfl
  have hlb : ('[').toNat = 91 := rfl
  have ht : ('t').toNat = 116 := rfl
  have hf : ('f').toNat = 102 := rfl
  have hnc : ('n').toNat = 110 := rfl
  have hms : ('-').toNat = 45 := rfl
  have hrb2 : (']').toNat = 93 := rfl
  have hcm : (',').toNat = 44 := rfl
  have hcl : (':').toNat = 58 := rfl
  have hsp0 : (' ').toNat = 32 := rfl
  have hnl0 : ('\n').toNat = 10 := rfl
  have htb0 : ('\t').toNat = 9 := rfl
  have hcr0 : ('\r').toNat = 13 := rfl
  refine ⟨?_, hne _ (by rw [hq]; omega), hne _ (by rw [hlb]; omega),
    hne _ (by rw [hb]; omega), hne _ (by rw [ht]; omega),
    hne _ (by rw [hf]; omega), hne _ (by rw [hnc]; omega),
    hne _ (by rw [hms]; omega), hne _ (by rw [hrb2]; omega),
    hne _ (by rw [hb2]; omega), hne _ (by rw [hcm]; omega),
    hne _ (by rw [hcl]; omega)⟩
  have h1 : c ≠ ' ' := hne _ (by rw [hsp0]; omega)
  have h2 : c ≠ '\n' := hne _ (by rw [hnl0]; omega)
  have h3 : c ≠ '\t' := hne _ (by rw [htb0]; omega)
  have h4 : c ≠ '\r' := hne _ (by rw [hcr0]; omega)
  simp [wsChar, h1, h2, h3, h4]

theorem natToChars_head : ∀ n : ℕ, ∃ (c : Char) (cs : List Char),
    natToChars n = c :: cs ∧ isDigitCh c = true := by
  intro n
  induction n using Nat.strong_induction_on with
  | _ n ih =>
      rw [natToChars]
      split
      · exact ⟨_, [], rfl, isDigitCh_digit n (by omega)⟩
      · rename_i h10
        obtain ⟨c, cs, hcs, hd⟩ := ih (n / 10) (Nat.div_lt_self (by omega) (by omega))
        exact ⟨c, cs ++ [Char.ofNat (48 + n % 10)], by rw [hcs]; rfl, hd⟩

/-- A run of digit characters. -/
def allDigits (ds : List Char) : Bool := ds.all isDigitCh

/-- The numeric value of a run of digit characters. -/
def digitsVal : List Char → ℕ
  | [] => 0
  | c :: t => (c.toNat - 48) * 10 ^ t.length + digitsVal t

theorem digitsVal_cons (c : Char) (t : List Char) :
    digitsVal (c :: t) = (c.toNat - 48) * 10 ^ t.length + digitsVal t := by
  rw [digitsVal]

theorem digitsVal_append : ∀ xs ys : List Char,
    digitsVal (xs ++ ys) = digitsVal xs * 10 ^ ys.length + digitsVal ys
  | [], ys => by simp [digitsVal]
  | c :: t, ys => by
      rw [List.cons_append, digitsVal_cons, digitsVal_cons, digitsVal_append t ys,
        List.length_append, pow_add]
      ring

theorem parseDigitsCnt_stop (acc cnt : ℕ) (rest : List Char) (h : noDigitHead rest) :
    parseDigitsCnt acc cnt rest = (acc, cnt, rest) := by
  match rest with
  | [] => rfl
  | c :: t =>
      have hc : isDigitCh c = false := h
      rw [parseDigitsCnt, if_neg (by simp [hc])]

theorem parseDigitsCnt_digits : ∀ (ds : List Char) (acc cnt : ℕ) (rest : List Char),
    allDigits ds = true →
    parseDigitsCnt acc cnt (ds ++ rest) =
      parseDigitsCnt (acc * 10 ^ ds.length + digitsVal ds) (cnt + ds.length) rest
  | [], acc, cnt, rest, h => by simp [digitsVal]
  | c :: t, acc, cnt, rest, h => by
      have hc : isDigitCh c = true ∧ allDigits t = true := by
        simpa [allDigits] using h
      rw [List.cons_append, parseDigitsCnt, if_pos hc.1,
        parseDigitsCnt_digits t _ _ rest hc.2]
      have h1 : (acc * 10 + (c.toNat - 48)) * 10 ^ t.length + digitsVal t =
          acc * 10 ^ (c :: t).length + digitsVal (c :: t) := by
        rw [digitsVal_cons, List.length_cons, pow_succ]
        ring
      have h2 : cnt + 1 + t.length = cnt + (c :: t).length := by
        rw [List.length_cons]
        omega
      rw [h1, h2]

theorem parseDigitsCnt_block (ds : List Char) (acc cnt : ℕ) (rest : List Char)
    (hd : allDigits ds = true) (hr : noDigitHead rest) :
    parseDigitsCnt acc cnt (ds ++ rest) =
      (acc * 10 ^ ds.length + digitsVal ds, cnt + ds.length, rest) := by
  rw [parseDigitsCnt_digits ds acc cnt rest hd, parseDigitsCnt_stop _ _ _ hr]

theorem natToChars_allDigits : ∀ n : ℕ, allDigits (natToChars n) = true := by
  intro n
  induction n using Nat.strong_induction_on with
  | _ n ih =>
      rw [natToChars]
      split
      · rename_i h
        simp [allDigits, isDigitCh_digit n (by omega)]
      · rename_i h
        have h1 := ih (n / 10) (Nat.div_lt_self (by omega) (by omega))
        have h2 : isDigitCh (Char.ofNat (48 + n % 10)) = true :=
          isDigitCh_digit (n % 10) (by omega)
        simp only [allDigits] at h1 ⊢
        rw [List.all_append]
        simp [h1, h2]

theorem natToChars_digitsVal : ∀ n : ℕ, digitsVal (natToChars n) = n := by
  intro n
  induction n using Nat.strong_induction_on with
  | _ n ih =>
      rw [natToChars]
      split
      · rename_i h
        show digitsVal [Char.ofNat (48 + n)] = n
        rw [digitsVal, digitsVal, digit_char_toNat n (by omega)]
        simp only [List.length_nil, pow_zero, mul_one, Nat.add_zero]
        omega
      · rename_i h
        rw [digitsVal_append, ih (n / 10) (Nat.div_lt_self (by omega) (by omega))]
        have h1 : digitsVal [Char.ofNat (48 + n % 10)] = n % 10 := by
          rw [digitsVal, digitsVal, digit_char_toNat (n % 10) (by omega)]
          simp only [List.length_nil, pow_zero, mul_one, Nat.add_zero]
          omega
        rw [h1]
        simp only [List.length_cons, List.length_nil, pow_one]
        omega

theorem replicate_zero_allDigits (z : ℕ) :
    allDigits (List.replicate z '0') = true := by
  simp only [allDigits, List.all_eq_true]
  intro c hc
  rw [List.eq_of_mem_replicate hc]
  decide

theorem replicate_zero_digitsVal : ∀ z : ℕ, digitsVal (List.replicate z '0') = 0
  | 0 => rfl
  | z + 1 => by
      rw [List.replicate_succ, digitsVal_cons, replicate_zero_digitsVal z]
      simp [show ('0').toNat - 48 = 0 from rfl]

/-- The continuation after a number token must not extend the token:
no digit, no point, no exponent marker. -/
def noNumHead : List Char → Prop
  | [] => True
  | c :: _ => isDigitCh c = false ∧ c ≠ '.' ∧ c ≠ 'e' ∧ c ≠ 'E'

theorem noNumHead_digit : ∀ rest : List Char, noNumHead rest → noDigitHead rest
  | [], _ => trivial
  | _ :: _, h => h.1

theorem parseFracOpt_noNum : ∀ rest : List Char, noNumHead rest →
    parseFracOpt rest = none
  | [], _ => rfl
  | [_], _ => rfl
  | c :: _ :: _, h => by
      rw [parseFracOpt, if_neg]
      intro hcontra
      exact h.2.1 hcontra.1

theorem parseExpOpt_noNum : ∀ rest : List Char, noNumHead rest →
    parseExpOpt rest = none
  | [], _ => rfl
  | c :: t, h => by
      rw [parseExpOpt.eq_def]
      simp only []
      rw [if_neg]
      rintro (hc | hc)
      · exact h.2.2.1 hc
      · exact h.2.2.2 hc

theorem parseFracOpt_ne_dot (c c2 : Char) (t : List Char) (h : c ≠ '.') :
    parseFracOpt (c :: c2 :: t) = none := by
  rw [parseFracOpt, if_neg]
  intro hcontra
  exact h hcontra.1

/-- Parse the fractional digits of a non-empty all-digit run. -/
theorem parseFrac_block (ds : List Char) (rest : List Char)
    (hne : ds ≠ []) (hall : allDigits ds = true) (hr : noDigitHead rest) :
    parseFracOpt ('.' :: (ds ++ rest)) = some (digitsVal ds, ds.length, rest) := by
  obtain ⟨h, bt, rfl⟩ : ∃ h bt, ds = h :: bt := by
    cases ds with
    | nil => exact absurd rfl hne
    | cons h bt => exact ⟨h, bt, rfl⟩
  have hc : isDigitCh h = true ∧ allDigits bt = true := by
    simpa [allDigits] using hall
  rw [List.cons_append, parseFracOpt, if_pos ⟨rfl, hc.1⟩,
    parseDigitsCnt_block bt (h.toNat - 48) 1 rest hc.2 hr, ← digitsVal_cons,
    List.length_cons, Nat.add_comm]

/-- Parse the integer digits of a number token after its leading
digit. -/
theorem parseInt_block (d : Char) (tl xs : List Char)
    (hall : allDigits (d :: tl) = true) (hx : noDigitHead xs) :
    parseDigitsCnt (d.toNat - 48) 0 (tl ++ xs) =
      (digitsVal (d :: tl), tl.length, xs) := by
  have hc : isDigitCh d = true ∧ allDigits tl = true := by
    simpa [allDigits] using hall
  rw [parseDigitsCnt_block tl (d.toNat - 48) 0 xs hc.2 hx, ← digitsVal_cons]
  simp

theorem parseNumTok_intToChars (i : ℤ) (rest : List Char) (h : noNumHead rest) :
    parseNumTok (intToChars i ++ rest) = some (.pint i, rest) := by
  have hrd : noDigitHead rest := noNumHead_digit rest h
  have hmk : ∀ (sign : ℤ) (v : ℕ), mkNum sign v rest = (.pint (sign * v), rest) := by
    intro sign v
    rw [mkNum, parseFracOpt_noNum rest h]
    simp only []
    rw [parseExpOpt_noNum rest h]
  rw [intToChars]
  by_cases hneg : i < 0
  · rw [if_pos hneg, List.cons_append]
    obtain ⟨c, cs, hcs, hd⟩ := natToChars_head i.natAbs
    rw [hcs, List.cons_append, parseNumTok.eq_def]
    simp only []
    rw [if_pos trivial, if_pos hd,
      parseInt_block c cs rest (by rw [← hcs]; exact natToChars_allDigits _) hrd]
    show some (mkNum (-1) (digitsVal (c :: cs)) rest) = some (.pint i, rest)
    rw [hmk (-1) (digitsVal (c :: cs)),
      show digitsVal (c :: cs) = i.natAbs from by
        rw [← hcs]; exact natToChars_digitsVal _]
    simp only [Option.some.injEq, Prod.mk.injEq, PyVal.pint.injEq]
    exact ⟨by omega, trivial⟩
  · rw [if_neg hneg]
    obtain ⟨c, cs, hcs, hd⟩ := natToChars_head i.toNat
    have hprops := digit_head_props c hd
    rw [hcs, List.cons_append, parseNumTok.eq_def]
    simp only []
    rw [if_neg hprops.2.2.2.2.2.2.2.1, if_pos hd,
      parseInt_block c cs rest (by rw [← hcs]; exact natToChars_allDigits _) hrd]
    show some (mkNum 1 (digitsVal (c :: cs)) rest) = some (.pint i, rest)
    rw [hmk 1 (digitsVal (c :: cs)),
      show digitsVal (c :: cs) = i.toNat from by
        rw [← hcs]; exact natToChars_digitsVal _]
    simp only [Option.some.injEq, Prod.mk.injEq, PyVal.pint.injEq]
    exact ⟨by omega, trivial⟩

/-! ### Decimal canonical form -/

theorem stripTens_stop (f : ℕ) (m e : ℤ) (h : m % 10 ≠ 0) :
    stripTens f m e = (m, e) := by
  cases f with
  | zero => rfl
  | succ f => rw [stripTens, if_neg h]

theorem canonDec_zero (e : ℤ) : canonDec 0 e = (0, 0) := by
  rw [canonDec, if_pos rfl]

theorem canonDec_self (m e : ℤ) (h : m % 10 ≠ 0) : canonDec m e = (m, e) := by
  have hm : m ≠ 0 := by
    intro h0
    rw [h0] at h
    exact h (by decide)
  rw [canonDec, if_neg hm, stripTens_stop _ _ _ h]

theorem stripTens_mul_pow : ∀ (k f : ℕ) (m e : ℤ), m % 10 ≠ 0 → k ≤ f →
    stripTens f (m * 10 ^ k) e = (m, e + k)
  | 0, f, m, e, h10, hkf => by
      rw [pow_zero, mul_one, stripTens_stop f m e h10]
      simp
  | k + 1, f, m, e, h10, hkf => by
      obtain ⟨f2, rfl⟩ : ∃ f2, f = f2 + 1 := ⟨f - 1, by omega⟩
      have hdvd : (m * 10 ^ (k + 1)) % 10 = 0 := by
        rw [show m * 10 ^ (k + 1) = 10 * (m * 10 ^ k) from by ring]
        exact Int.mul_emod_right 10 (m * 10 ^ k)
      rw [stripTens, if_pos hdvd]
      have hdiv : m * 10 ^ (k + 1) / 10 = m * 10 ^ k := by
        rw [show m * 10 ^ (k + 1) = 10 * (m * 10 ^ k) from by ring]
        exact Int.mul_ediv_cancel_left _ (by norm_num)
      rw [hdiv, stripTens_mul_pow k f2 m (e + 1) h10 (by omega)]
      rw [show e + 1 + (k : ℤ) = e + ((k + 1 : ℕ) : ℤ) from by push_cast; ring]

theorem canonDec_mul_pow (m e : ℤ) (k : ℕ) (h : m % 10 ≠ 0) :
    canonDec (m * 10 ^ k) e = (m, e + k) := by
  have hm : m ≠ 0 := by
    intro h0
    rw [h0] at h
    exact h (by decide)
  have hmk : m * 10 ^ k ≠ 0 := mul_ne_zero hm (pow_ne_zero k (by norm_num))
  rw [canonDec, if_neg hmk]
  apply stripTens_mul_pow k _ m e h
  have h2 : (m * 10 ^ k).natAbs = m.natAbs * 10 ^ k := by
    rw [Int.natAbs_mul, Int.natAbs_pow]
    rfl
  rw [h2]
  have h3 : k < 10 ^ k := Nat.lt_pow_self (by norm_num) k
  have h4 : 1 ≤ m.natAbs := by omega
  calc k ≤ 10 ^ k := le_of_lt h3
    _ ≤ m.natAbs * 10 ^ k := Nat.le_mul_of_pos_left _ (by omega)

theorem canonDec_eq_of (bigm bige m e : ℤ) (h1 : bigm = m) (h2 : bige = e)
    (h : m % 10 ≠ 0) : canonDec bigm bige = (m, e) := by
  rw [h1, h2, canonDec_self _ _ h]

/-! ### The exponent field of a float repr -/

theorem noDigitHead_expChars (e : ℤ) (rest : List Char) :
    noDigitHead (expChars e ++ rest) := by
  rw [expChars, List.cons_append]
  show isDigitCh 'e' = false
  decide

theorem expDigits_allDigits (e : ℤ) : allDigits (expDigits e) = true := by
  rw [expDigits]
  split
  · simp only [allDigits, List.all_cons, Bool.and_eq_true]
    refine ⟨by decide, ?_⟩
    have h1 := natToChars_allDigits e.natAbs
    simpa [allDigits] using h1
  · exact natToChars_allDigits e.natAbs

theorem expDigits_digitsVal (e : ℤ) : digitsVal (expDigits e) = e.natAbs := by
  rw [expDigits]
  split
  · rw [digitsVal_cons, natToChars_digitsVal]
    simp [show ('0').toNat - 48 = 0 from rfl]
  · exact natToChars_digitsVal e.natAbs

theorem parseExpOpt_cons_minus (t : List Char) :
    parseExpOpt ('e' :: '-' :: t) =
      some (-((parseDigitsCnt 0 0 t).1 : ℤ), (parseDigitsCnt 0 0 t).2.2) := rfl

theorem parseExpOpt_cons_plus (t : List Char) :
    parseExpOpt ('e' :: '+' :: t) =
      some (((parseDigitsCnt 0 0 t).1 : ℤ), (parseDigitsCnt 0 0 t).2.2) := rfl

theorem parseExpOpt_expChars (e : ℤ) (rest : List Char) (hr : noDigitHead rest) :
    parseExpOpt (expChars e ++ rest) = some (e, rest) := by
  have hblock := parseDigitsCnt_block (expDigits e) 0 0 rest
    (expDigits_allDigits e) hr
  rw [expDigits_digitsVal] at hblock
  simp only [zero_mul, zero_add] at hblock
  rw [expChars]
  by_cases he : e < 0
  · rw [if_pos he, List.cons_append, List.cons_append, parseExpOpt_cons_minus,
      hblock]
    simp only [Option.some.injEq, Prod.mk.injEq]
    exact ⟨by omega, trivial⟩
  · rw [if_neg he, List.cons_append, List.cons_append, parseExpOpt_cons_plus,
      hblock]
    simp only [Option.some.injEq, Prod.mk.injEq]
    exact ⟨by omega, trivial⟩

/-! ### The layout of a float repr parses back -/

theorem digit_block_head (z a : ℕ) : ∃ c t,
    List.replicate z '0' ++ natToChars a = c :: t ∧ isDigitCh c = true := by
  cases z with
  | zero =>
      obtain ⟨c, t, hct, hd⟩ := natToChars_head a
      exact ⟨c, t, by rw [List.replicate_zero, List.nil_append, hct], hd⟩
  | succ z =>
      exact ⟨'0', List.replicate z '0' ++ natToChars a,
        by rw [List.replicate_succ, List.cons_append], by decide⟩

theorem allDigits_take (ds : List Char) (p : ℕ) (h : allDigits ds = true) :
    allDigits (ds.take p) = true := by
  simp only [allDigits, List.all_eq_true] at h ⊢
  exact fun c hc => h c (List.take_subset _ _ hc)

theorem allDigits_drop (ds : List Char) (p : ℕ) (h : allDigits ds = true) :
    allDigits (ds.drop p) = true := by
  simp only [allDigits, List.all_eq_true] at h ⊢
  exact fun c hc => h c (List.drop_subset _ _ hc)

theorem drop_digit_head (ds : List Char) (p : ℕ) (hp : p < ds.length)
    (hall : allDigits ds = true) :
    ∃ c t, ds.drop p = c :: t ∧ isDigitCh c = true := by
  cases hd : ds.drop p with
  | nil =>
      have hlen := congrArg List.length hd
      rw [List.length_drop] at hlen
      simp at hlen
      omega
  | cons c t =>
      refine ⟨c, t, rfl, ?_⟩
      simp only [allDigits, List.all_eq_true] at hall
      exact hall c (List.drop_subset _ _ (by rw [hd]; exact List.mem_cons_self c t))

theorem mkNum_frac_noexp (sign : ℤ) (intval : ℕ) (xs : List Char)
    (fv fc : ℕ) (r1 : List Char) (m e : ℤ)
    (hfrac : parseFracOpt xs = some (fv, fc, r1))
    (hexp : parseExpOpt r1 = none)
    (hcanon : canonDec (sign * ((intval : ℤ) * (10 : ℤ) ^ fc + (fv : ℤ)))
      (-(fc : ℤ)) = (m, e)) :
    mkNum sign intval xs = (.pfloat m e, r1) := by
  rw [mkNum, hfrac]
  simp only []
  rw [hexp]
  simp only []
  rw [hcanon]

theorem mkNum_frac_exp (sign : ℤ) (intval : ℕ) (xs : List Char)
    (fv fc : ℕ) (r1 : List Char) (ex : ℤ) (r2 : List Char) (m e : ℤ)
    (hfrac : parseFracOpt xs = some (fv, fc, r1))
    (hexp : parseExpOpt r1 = some (ex, r2))
    (hcanon : canonDec (sign * ((intval : ℤ) * (10 : ℤ) ^ fc + (fv : ℤ)))
      (ex - (fc : ℤ)) = (m, e)) :
    mkNum sign intval xs = (.pfloat m e, r2) := by
  rw [mkNum, hfrac]
  simp only []
  rw [hexp]
  simp only []
  rw [hcanon]

theorem mkNum_nofrac_exp (sign : ℤ) (intval : ℕ) (xs : List Char)
    (ex : ℤ) (r2 : List Char) (m e : ℤ)
    (hfrac : parseFracOpt xs = none)
    (hexp : parseExpOpt xs = some (ex, r2))
    (hcanon : canonDec (sign * intval) ex = (m, e)) :
    mkNum sign intval xs = (.pfloat m e, r2) := by
  rw [mkNum, hfrac]
  simp only []
  rw [hexp]
  simp only []
  rw [hcanon]

/-- Parsing the unsigned layout of `a * 10 ^ e` recovers the decimal:
the layout starts with a digit, and feeding the parsed integer part to
`mkNum` yields exactly the float `sign * a * 10 ^ e`. -/
theorem parseNum_floatLayout (sign : ℤ) (a : ℕ) (e : ℤ) (ha : 0 < a)
    (h10 : (a : ℤ) % 10 ≠ 0) (hsgn : sign = 1 ∨ sign = -1)
    (rest : List Char) (hr : noNumHead rest) :
    ∃ c t, floatLayout a e ++ rest = c :: t ∧ isDigitCh c = true ∧
      mkNum sign (parseDigitsCnt (c.toNat - 48) 0 t).1
        (parseDigitsCnt (c.toNat - 48) 0 t).2.2 =
        (.pfloat (sign * a) e, rest) := by
  have hrd : noDigitHead rest := noNumHead_digit rest hr
  have ha0 : (a : ℤ) ≠ 0 := by omega
  have hs0 : sign * (a : ℤ) ≠ 0 := by
    rcases hsgn with rfl | rfl
    · simpa using ha0
    · simpa using ha0
  have hs10 : (sign * (a : ℤ)) % 10 ≠ 0 := by
    rcases hsgn with rfl | rfl
    · simpa using h10
    · rw [show (-1 : ℤ) * (a : ℤ) = -(a : ℤ) from by ring]
      omega
  have hallD := natToChars_allDigits a
  have hvalD := natToChars_digitsVal a
  have hexpnone : parseExpOpt rest = none := parseExpOpt_noNum rest hr
  rw [floatLayout]
  by_cases hsci : e + ((natToChars a).length : ℤ) ≤ -4 ∨
      16 < e + ((natToChars a).length : ℤ)
  · rw [if_pos hsci]
    obtain ⟨d, tl, hD, hdd⟩ := natToChars_head a
    rw [hD]
    simp only []
    by_cases htl : tl = []
    · subst htl
      rw [if_pos rfl]
      rw [show e + (((d :: ([] : List Char)).length : ℕ) : ℤ) - 1 = e from by simp]
      refine ⟨d, expChars e ++ rest, by rw [List.cons_append], hdd, ?_⟩
      rw [parseDigitsCnt_stop _ _ _ (noDigitHead_expChars e rest)]
      show mkNum sign (d.toNat - 48) (expChars e ++ rest) =
        (.pfloat (sign * a) e, rest)
      have hda : d.toNat - 48 = a := by
        have h1 : digitsVal [d] = a := by rw [← hD]; exact hvalD
        rw [digitsVal, digitsVal] at h1
        simpa using h1
      have hfrac : parseFracOpt (expChars e ++ rest) = none := by
        rw [expChars, List.cons_append, List.cons_append]
        exact parseFracOpt_ne_dot _ _ _ (by decide)
      exact mkNum_nofrac_exp sign _ _ e rest _ _ hfrac
        (parseExpOpt_expChars e rest hrd)
        (canonDec_eq_of _ _ _ _ (by rw [hda]) rfl hs10)
    · obtain ⟨d2, tl2, rfl⟩ : ∃ d2 tl2, tl = d2 :: tl2 := by
        cases tl with
        | nil => exact absurd rfl htl
        | cons d2 tl2 => exact ⟨d2, tl2, rfl⟩
      rw [if_neg htl]
      have hall2 : allDigits (d2 :: tl2) = true := by
        rw [hD] at hallD
        simp only [allDigits, List.all_cons, Bool.and_eq_true] at hallD ⊢
        exact ⟨hallD.2.1, hallD.2.2⟩
      refine ⟨d, '.' :: d2 :: (tl2 ++
        (expChars (e + (((d :: d2 :: tl2).length : ℕ) : ℤ) - 1) ++ rest)),
        by simp, hdd, ?_⟩
      rw [parseDigitsCnt_stop _ _ _ (by exact rfl)]
      show mkNum sign (d.toNat - 48) ('.' :: d2 :: (tl2 ++
        (expChars (e + (((d :: d2 :: tl2).length : ℕ) : ℤ) - 1) ++ rest))) =
        (.pfloat (sign * a) e, rest)
      have hfrac : parseFracOpt ('.' :: d2 :: (tl2 ++
          (expChars (e + (((d :: d2 :: tl2).length : ℕ) : ℤ) - 1) ++ rest))) =
          some (digitsVal (d2 :: tl2), (d2 :: tl2).length,
            expChars (e + (((d :: d2 :: tl2).length : ℕ) : ℤ) - 1) ++ rest) := by
        have hb := parseFrac_block (d2 :: tl2)
          (expChars (e + (((d :: d2 :: tl2).length : ℕ) : ℤ) - 1) ++ rest)
          (by simp) hall2 (noDigitHead_expChars _ _)
        simpa using hb
      refine mkNum_frac_exp sign _ _ _ _ _ _ _ _ _ hfrac
        (parseExpOpt_expChars _ rest hrd) (canonDec_eq_of _ _ _ _ ?_ ?_ hs10)
      · have h1 : digitsVal (d :: d2 :: tl2) = a := by rw [← hD]; exact hvalD
        rw [digitsVal_cons] at h1
        rw [show (a : ℤ) = (((d.toNat - 48) * 10 ^ (d2 :: tl2).length +
          digitsVal (d2 :: tl2) : ℕ) : ℤ) from by rw [h1]]
        push_cast
        ring
      · simp only [List.length_cons]
        push_cast
        ring
  · rw [if_neg hsci]
    by_cases hle0 : e + ((natToChars a).length : ℤ) ≤ 0
    · rw [if_pos hle0]
      have hznn : (((-(e + ((natToChars a).length : ℤ))).toNat : ℕ) : ℤ) =
          -(e + ((natToChars a).length : ℤ)) := Int.toNat_of_nonneg (by omega)
      refine ⟨'0', '.' :: ((List.replicate
        (-(e + ((natToChars a).length : ℤ))).toNat '0' ++ natToChars a) ++ rest),
        by simp, by decide, ?_⟩
      rw [show ('0').toNat - 48 = 0 from rfl,
        parseDigitsCnt_stop _ _ _ (by exact rfl)]
      show mkNum sign 0 ('.' :: ((List.replicate
        (-(e + ((natToChars a).length : ℤ))).toNat '0' ++ natToChars a) ++ rest)) =
        (.pfloat (sign * a) e, rest)
      have hallZ : allDigits (List.replicate
          (-(e + ((natToChars a).length : ℤ))).toNat '0' ++ natToChars a) = true := by
        simp only [allDigits, List.all_append, Bool.and_eq_true]
        constructor
        · have h1 := replicate_zero_allDigits
            (-(e + ((natToChars a).length : ℤ))).toNat
          simpa [allDigits] using h1
        · simpa [allDigits] using hallD
      have hneZ : List.replicate
          (-(e + ((natToChars a).length : ℤ))).toNat '0' ++ natToChars a ≠ [] := by
        obtain ⟨c0, t0, hct0, -⟩ := digit_block_head _ a
        rw [hct0]
        simp
      have hfrac := parseFrac_block (List.replicate
        (-(e + ((natToChars a).length : ℤ))).toNat '0' ++ natToChars a) rest
        hneZ hallZ hrd
      refine mkNum_frac_noexp sign 0 _ _ _ _ _ _ hfrac hexpnone
        (canonDec_eq_of _ _ _ _ ?_ ?_ hs10)
      · rw [digitsVal_append, replicate_zero_digitsVal, hvalD]
        push_cast
        ring
      · rw [List.length_append, List.length_replicate]
        push_cast
        omega
    · rw [if_neg hle0]
      by_cases hnd : ((natToChars a).length : ℤ) ≤ e + ((natToChars a).length : ℤ)
      · rw [if_pos hnd]
        have hennn : ((e.toNat : ℕ) : ℤ) = e := Int.toNat_of_nonneg (by omega)
        rw [show e + ((natToChars a).length : ℤ) - ((natToChars a).length : ℤ) = e
          from by ring]
        obtain ⟨d, tl, hD, hdd⟩ := natToChars_head a
        rw [hD]
        refine ⟨d, (tl ++ List.replicate e.toNat '0') ++ ('.' :: '0' :: rest),
          by simp, hdd, ?_⟩
        have hallTZ : allDigits (d :: (tl ++ List.replicate e.toNat '0')) = true := by
          rw [hD] at hallD
          simp only [allDigits, List.all_cons, List.all_append, Bool.and_eq_true]
            at hallD ⊢
          refine ⟨hallD.1, hallD.2, ?_⟩
          have h1 := replicate_zero_allDigits e.toNat
          simpa [allDigits] using h1
        rw [parseInt_block d (tl ++ List.replicate e.toNat '0') ('.' :: '0' :: rest)
          hallTZ (by exact rfl)]
        show mkNum sign (digitsVal (d :: (tl ++ List.replicate e.toNat '0')))
          ('.' :: '0' :: rest) = (.pfloat (sign * a) e, rest)
        have hv : digitsVal (d :: (tl ++ List.replicate e.toNat '0')) =
            a * 10 ^ e.toNat := by
          rw [show (d :: (tl ++ List.replicate e.toNat '0') : List Char) =
            (d :: tl) ++ List.replicate e.toNat '0' from by simp,
            digitsVal_append, replicate_zero_digitsVal, ← hD, hvalD,
            List.length_replicate]
          ring
        have hfrac : parseFracOpt ('.' :: '0' :: rest) = some (0, 1, rest) := by
          have hb := parseFrac_block ['0'] rest (by simp) (by decide) hrd
          rw [show digitsVal ['0'] = 0 from rfl] at hb
          simpa using hb
        refine mkNum_frac_noexp sign _ _ _ _ _ _ _ hfrac hexpnone ?_
        rw [hv]
        rw [show sign * (((a * 10 ^ e.toNat : ℕ) : ℤ) * (10 : ℤ) ^ (1 : ℕ) +
            ((0 : ℕ) : ℤ)) = (sign * (a : ℤ)) * 10 ^ (e.toNat + 1) from by
          push_cast
          ring]
        rw [canonDec_mul_pow _ _ _ hs10]
        rw [show -((1 : ℕ) : ℤ) + ((e.toNat + 1 : ℕ) : ℤ) = e from by
          push_cast
          omega]
      · rw [if_neg hnd]
        obtain ⟨d, tl, hD, hdd⟩ := natToChars_head a
        have hpn : (((e + ((natToChars a).length : ℤ)).toNat : ℕ) : ℤ) =
            e + ((natToChars a).length : ℤ) := Int.toNat_of_nonneg (by omega)
        have hlen2 : (natToChars a).length = tl.length + 1 := by rw [hD]; rfl
        obtain ⟨p2, hp2⟩ : ∃ p2, (e + ((natToChars a).length : ℤ)).toNat = p2 + 1 :=
          ⟨(e + ((natToChars a).length : ℤ)).toNat - 1, by omega⟩
        have hplt : p2 < tl.length := by omega
        rw [hD] at hpn hp2
        rw [hD, hp2, List.take_succ_cons, List.drop_succ_cons]
        refine ⟨d, tl.take p2 ++ ('.' :: (tl.drop p2 ++ rest)), by simp, hdd, ?_⟩
        have halltl : allDigits tl = true := by
          rw [hD] at hallD
          simp only [allDigits, List.all_cons, Bool.and_eq_true] at hallD
          simp only [allDigits]
          exact hallD.2
        have halltk : allDigits (d :: tl.take p2) = true := by
          rw [hD] at hallD
          simp only [allDigits, List.all_cons, Bool.and_eq_true] at hallD ⊢
          refine ⟨hallD.1, ?_⟩
          have h1 := allDigits_take tl p2 halltl
          simpa [allDigits] using h1
        rw [parseInt_block d (tl.take p2) ('.' :: (tl.drop p2 ++ rest)) halltk
          (by exact rfl)]
        show mkNum sign (digitsVal (d :: tl.take p2)) ('.' :: (tl.drop p2 ++ rest)) =
          (.pfloat (sign * a) e, rest)
        have halldr : allDigits (tl.drop p2) = true := allDigits_drop tl p2 halltl
        have hfrac : parseFracOpt ('.' :: (tl.drop p2 ++ rest)) =
            some (digitsVal (tl.drop p2), (tl.drop p2).length, rest) :=
          parseFrac_block _ rest (by
            obtain ⟨c0, t0, hct0, -⟩ := drop_digit_head tl p2 hplt halltl
            rw [hct0]
            simp) halldr hrd
        refine mkNum_frac_noexp sign _ _ _ _ _ _ _ hfrac hexpnone
          (canonDec_eq_of _ _ _ _ ?_ ?_ hs10)
        · have hsplit : digitsVal (d :: tl.take p2) * 10 ^ (tl.drop p2).length +
              digitsVal (tl.drop p2) = a := by
            have h1 : digitsVal (d :: tl) = a := by rw [← hD]; exact hvalD
            rw [← h1, show (d :: tl : List Char) =
              (d :: tl.take p2) ++ tl.drop p2 from by
                rw [List.cons_append, List.take_append_drop],
              digitsVal_append]
          rw [show (a : ℤ) = ((digitsVal (d :: tl.take p2) *
            10 ^ (tl.drop p2).length + digitsVal (tl.drop p2) : ℕ) : ℤ) from by
            rw [hsplit]]
          push_cast
          ring
        · rw [List.length_drop]
          simp only [List.length_cons] at hpn hp2
          omega

theorem floatLayout_head (a : ℕ) (e : ℤ) :
    ∃ c t, floatLayout a e = c :: t ∧ isDigitCh c = true := by
  obtain ⟨d, tl, hD, hdd⟩ := natToChars_head a
  rw [floatLayout, hD]
  by_cases h1 : e + (((d :: tl).length : ℕ) : ℤ) ≤ -4 ∨
      16 < e + (((d :: tl).length : ℕ) : ℤ)
  · rw [if_pos h1]
    simp only []
    by_cases h2 : tl = []
    · rw [if_pos h2]
      exact ⟨d, _, rfl, hdd⟩
    · rw [if_neg h2]
      exact ⟨d, _, rfl, hdd⟩
  · rw [if_neg h1]
    by_cases h2 : e + (((d :: tl).length : ℕ) : ℤ) ≤ 0
    · rw [if_pos h2]
      exact ⟨'0', _, rfl, by decide⟩
    · rw [if_neg h2]
      by_cases h3 : (((d :: tl).length : ℕ) : ℤ) ≤ e + (((d :: tl).length : ℕ) : ℤ)
      · rw [if_pos h3]
        exact ⟨d, _, rfl, hdd⟩
      · rw [if_neg h3]
        obtain ⟨p2, hp2⟩ : ∃ p2,
            (e + (((d :: tl).length : ℕ) : ℤ)).toNat = p2 + 1 :=
          ⟨(e + (((d :: tl).length : ℕ) : ℤ)).toNat - 1, by omega⟩
        rw [hp2, List.take_succ_cons]
        exact ⟨d, _, rfl, hdd⟩

theorem floatRepr_head (m e : ℤ) : ∃ c t, floatRepr m e = c :: t ∧
    (isDigitCh c = true ∨ c = '-') := by
  rw [floatRepr]
  by_cases h0 : m = 0
  · rw [if_pos h0]
    exact ⟨'0', _, rfl, Or.inl (by decide)⟩
  · rw [if_neg h0]
    by_cases hneg : m < 0
    · rw [if_pos hneg]
      exact ⟨'-', _, rfl, Or.inr rfl⟩
    · rw [if_neg hneg]
      obtain ⟨c, t, hct, hd⟩ := floatLayout_head m.natAbs e
      exact ⟨c, t, hct, Or.inl hd⟩

theorem parseNumTok_floatRepr (m e : ℤ) (rest : List Char)
    (hcanon : floatCanon m e = true) (hr : noNumHead rest) :
    parseNumTok (floatRepr m e ++ rest) = some (.pfloat m e, rest) := by
  have hrd : noDigitHead rest := noNumHead_digit rest hr
  rw [floatRepr]
  by_cases h0 : m = 0
  · subst h0
    have he : e = 0 := by simpa [floatCanon] using hcanon
    subst he
    rw [if_pos rfl]
    show parseNumTok ('0' :: '.' :: '0' :: rest) = some (.pfloat 0 0, rest)
    rw [parseNumTok.eq_def]
    simp only []
    rw [if_neg (by decide), if_pos (by decide)]
    rw [show ('0').toNat - 48 = 0 from rfl,
      parseDigitsCnt_stop 0 0 _ (by exact rfl)]
    show some (mkNum 1 0 ('.' :: '0' :: rest)) = some (.pfloat 0 0, rest)
    have hfrac : parseFracOpt ('.' :: '0' :: rest) = some (0, 1, rest) := by
      have hb := parseFrac_block ['0'] rest (by simp) (by decide) hrd
      rw [show digitsVal ['0'] = 0 from rfl] at hb
      simpa using hb
    rw [mkNum_frac_noexp 1 0 ('.' :: '0' :: rest) 0 1 rest 0 0 hfrac
      (parseExpOpt_noNum rest hr) (by
        rw [show (1 : ℤ) * (((0 : ℕ) : ℤ) * (10 : ℤ) ^ (1 : ℕ) + ((0 : ℕ) : ℤ)) =
          0 from by norm_num]
        exact canonDec_zero _)]
  · rw [if_neg h0]
    have h10 : m % 10 ≠ 0 := by
      simp only [floatCanon, if_neg h0] at hcanon
      simpa using hcanon
    have ha : 0 < m.natAbs := by omega
    have h10n : (m.natAbs : ℤ) % 10 ≠ 0 := by omega
    by_cases hneg : m < 0
    · rw [if_pos hneg]
      obtain ⟨c, t, hct, hd, hmk⟩ := parseNum_floatLayout (-1) m.natAbs e ha h10n
        (Or.inr rfl) rest hr
      rw [List.cons_append, hct, parseNumTok.eq_def]
      simp only []
      rw [if_pos trivial, if_pos hd, hmk]
      rw [show (-1 : ℤ) * (m.natAbs : ℤ) = m from by omega]
    · rw [if_neg hneg]
      obtain ⟨c, t, hct, hd, hmk⟩ := parseNum_floatLayout 1 m.natAbs e ha h10n
        (Or.inl rfl) rest hr
      have hprops := digit_head_props c hd
      rw [hct, parseNumTok.eq_def]
      simp only []
      rw [if_neg hprops.2.2.2.2.2.2.2.1, if_pos hd, hmk]
      rw [show (1 : ℤ) * (m.natAbs : ℤ) = m from by omega]

/-! ### String escape round trip -/

theorem hexVal_hexDigitChar : ∀ d : ℕ, d < 16 → hexVal (hexDigitChar d) = some d := by
  decide

theorem readHex4_hex4 (n : ℕ) (h : n < 65536) (rest : List Char) :
    readHex4 (hex4 n ++ rest) = some (n, rest) := by
  have h1 := hexVal_hexDigitChar (n / 4096 % 16) (by omega)
  have h2 := hexVal_hexDigitChar (n / 256 % 16) (by omega)
  have h3 := hexVal_hexDigitChar (n / 16 % 16) (by omega)
  have h4 := hexVal_hexDigitChar (n % 16) (by omega)
  simp only [hex4, List.cons_append, List.nil_append, readHex4, h1, h2, h3, h4]
  simp only [Option.some.injEq, Prod.mk.injEq]
  exact ⟨by omega, by trivial⟩

theorem readStringChar_quote (rest : List Char) :
    readStringChar ('"' :: rest) = some (none, rest) := by
  simp [readStringChar]

theorem readStringChar_escapeChar (c : Char) (rest : List Char) :
    readStringChar (escapeChar c ++ rest) = some (some c, rest) := by
  rw [escapeChar]
  by_cases h1 : c = '\\'
  · subst h1
    rw [if_pos rfl]
    simp [readStringChar, shortEscape]
  · rw [if_neg h1]
    by_cases h2 : c = '"'
    · subst h2
      rw [if_pos rfl]
      simp [readStringChar, shortEscape]
    · rw [if_neg h2]
      by_cases h3 : c.toNat = 8
      · rw [if_pos h3, char_eq_ofNat_of_toNat c 8 h3]
        simp [readStringChar, shortEscape]
      · rw [if_neg h3]
        by_cases h4 : c.toNat = 9
        · rw [if_pos h4, char_eq_ofNat_of_toNat c 9 h4]
          simp [readStringChar, shortEscape]
        · rw [if_neg h4]
          by_cases h5 : c.toNat = 10
          · rw [if_pos h5, char_eq_ofNat_of_toNat c 10 h5]
            simp [readStringChar, shortEscape]
          · rw [if_neg h5]
            by_cases h6 : c.toNat = 12
            · rw [if_pos h6, char_eq_ofNat_of_toNat c 12 h6]
              simp [readStringChar, shortEscape]
            · rw [if_neg h6]
              by_cases h7 : c.toNat = 13
              · rw [if_pos h7, char_eq_ofNat_of_toNat c 13 h7]
                simp [readStringChar, shortEscape]
              · rw [if_neg h7]
                by_cases h8 : 32 ≤ c.toNat ∧ c.toNat ≤ 126
                · rw [if_pos h8, List.singleton_append, readStringChar.eq_def]
                  dsimp only
                  rw [if_neg h2, if_neg h1, if_neg (by omega : ¬ c.toNat < 32)]
                · rw [if_neg h8]
                  by_cases h9 : c.toNat < 65536
                  · rw [if_pos h9]
                    have hsur1 : ¬ (55296 ≤ c.toNat ∧ c.toNat ≤ 56319) := by
                      rcases char_valid_ranges c with hv | hv <;> omega
                    have hsur2 : ¬ (56320 ≤ c.toNat ∧ c.toNat ≤ 57343) := by
                      rcases char_valid_ranges c with hv | hv <;> omega
                    simp only [List.cons_append]
                    simp [readStringChar, readHex4_hex4 _ h9, hsur1, hsur2,
                      Char.ofNat_toNat]
                  · rw [if_neg h9]
                    have hval : c.toNat < 1114112 := by
                      rcases char_valid_ranges c with hv | hv <;> omega
                    have hhi : 55296 + (c.toNat - 65536) / 1024 < 65536 := by omega
                    have hlo : 56320 + (c.toNat - 65536) % 1024 < 65536 := by omega
                    have hin1 : 55296 ≤ 55296 + (c.toNat - 65536) / 1024 ∧
                        55296 + (c.toNat - 65536) / 1024 ≤ 56319 := ⟨by omega, by omega⟩
                    have hin2 : 56320 ≤ 56320 + (c.toNat - 65536) % 1024 ∧
                        56320 + (c.toNat - 65536) % 1024 ≤ 57343 := ⟨by omega, by omega⟩
                    have harith : 65536 + (55296 + (c.toNat - 65536) / 1024 - 55296) * 1024 +
                        (56320 + (c.toNat - 65536) % 1024 - 56320) = c.toNat := by omega
                    simp only [List.cons_append, List.append_assoc]
                    simp [readStringChar, readHex4_hex4 _ hhi, readHex4_hex4 _ hlo,
                      hin1, hin2, harith, Char.ofNat_toNat]
                    have harith2 : 65536 + (c.toNat - 65536) / 1024 * 1024 +
                        (c.toNat - 65536) % 1024 = c.toNat := by omega
                    rw [harith2, Char.ofNat_toNat]

theorem parseStringBody_encode : ∀ (s : List Char) (fuel : ℕ) (rest : List Char),
    s.length < fuel →
    parseStringBody fuel ((s.map escapeChar).flatten ++ '"' :: rest) = some (s, rest)
  | [], fuel, rest, h => by
      obtain ⟨f, rfl⟩ : ∃ f, fuel = f + 1 := ⟨fuel - 1, by omega⟩
      simp only [List.map_nil, List.flatten_nil, List.nil_append]
      rw [parseStringBody, readStringChar_quote]
  | c :: s', fuel, rest, h => by
      obtain ⟨f, rfl⟩ : ∃ f, fuel = f + 1 := ⟨fuel - 1, by omega⟩
      simp only [List.map_cons, List.flatten_cons, List.append_assoc]
      rw [parseStringBody, readStringChar_escapeChar]
      dsimp only
      rw [parseStringBody_encode s' f rest (by simpa using h)]

theorem escapeChar_length_pos (c : Char) : 1 ≤ (escapeChar c).length := by
  rw [escapeChar]
  repeat' split
  all_goals simp [hex4]

theorem flatten_escape_length : ∀ s : List Char,
    s.length ≤ ((s.map escapeChar).flatten).length
  | [] => by simp
  | c :: s' => by
      simp only [List.map_cons, List.flatten_cons, List.length_append,
        List.length_cons]
      have h1 := escapeChar_length_pos c
      have h2 := flatten_escape_length s'
      omega

/-! ### Structure round-trip prerequisites -/

theorem skipWs_nl (n : ℕ) (xs : List Char) :
    skipWs ('\n' :: (spaces n ++ xs)) = skipWs xs := by
  rw [skipWs, if_pos (by decide)]
  exact skipWs_spaces n xs

theorem parseVal_congr_skipWs (fuel : ℕ) (xs ys : List Char)
    (h : skipWs xs = skipWs ys) : parseVal fuel xs = parseVal fuel ys := by
  cases fuel with
  | zero => simp [parseVal]
  | succ f => rw [parseVal, parseVal, h]

theorem encodeVal_head (ind : ℕ) (v : PyVal) : ∃ c t, encodeVal ind v = c :: t ∧
    wsChar c = false ∧ c ≠ ']' ∧ c ≠ rbrace := by
  cases v with
  | pstr s => exact ⟨'"', _, rfl, by decide, by decide, by decide⟩
  | pint i =>
      show ∃ c t, intToChars i = c :: t ∧ _
      rw [intToChars]
      by_cases h : i < 0
      · rw [if_pos h]
        exact ⟨'-', _, rfl, by decide, by decide, by decide⟩
      · rw [if_neg h]
        obtain ⟨c, cs, hcs, hd⟩ := natToChars_head i.toNat
        have hp := digit_head_props c hd
        exact ⟨c, cs, hcs, hp.1, hp.2.2.2.2.2.2.2.2.1, hp.2.2.2.2.2.2.2.2.2.1⟩
  | pfloat m e =>
      show ∃ c t, floatRepr m e = c :: t ∧ _
      obtain ⟨c, t, hct, hd⟩ := floatRepr_head m e
      rcases hd with hd | hd
      · have hp := digit_head_props c hd
        exact ⟨c, t, hct, hp.1, hp.2.2.2.2.2.2.2.2.1, hp.2.2.2.2.2.2.2.2.2.1⟩
      · subst hd
        exact ⟨'-', t, hct, by decide, by decide, by decide⟩
  | pbool b =>
      cases b
      · exact ⟨'f', _, rfl, by decide, by decide, by decide⟩
      · exact ⟨'t', _, rfl, by decide, by decide, by decide⟩
  | pnone => exact ⟨'n', _, rfl, by decide, by decide, by decide⟩
  | plist xs =>
      cases xs
      · exact ⟨'[', _, rfl, by decide, by decide, by decide⟩
      · exact ⟨'[', _, rfl, by decide, by decide, by decide⟩
  | ptuple xs =>
      cases xs
      · exact ⟨'[', _, rfl, by decide, by decide, by decide⟩
      · exact ⟨'[', _, rfl, by decide, by decide, by decide⟩
  | pdict es =>
      cases es with
      | nil => exact ⟨lbrace, _, rfl, by decide, by decide, by decide⟩
      | cons e es' =>
          obtain ⟨k, v⟩ := e
          exact ⟨lbrace, _, rfl, by decide, by decide, by decide⟩

theorem intToChars_length_pos (i : ℤ) : 1 ≤ (intToChars i).length := by
  rw [intToChars]
  split
  · simp
  · obtain ⟨c, cs, hcs, -⟩ := natToChars_head i.toNat
    rw [hcs]
    simp

mutual

theorem sizeVal_le_encodeVal : ∀ (v : PyVal) (ind : ℕ),
    sizeVal v ≤ (encodeVal ind v).length
  | .pstr s, ind => by simp [sizeVal, encodeVal, encodeString]
  | .pint i, ind => by
      have := intToChars_length_pos i
      simpa [sizeVal, encodeVal] using this
  | .pfloat m e, ind => by
      obtain ⟨c, t, hct, -⟩ := floatRepr_head m e
      show sizeVal (.pfloat m e) ≤ (floatRepr m e).length
      rw [hct]
      simp [sizeVal]
  | .pbool b, ind => by cases b <;> simp [sizeVal, encodeVal]
  | .pnone, ind => by simp [sizeVal, encodeVal]
  | .plist [], ind => by simp [sizeVal, sizeItems, encodeVal]
  | .plist (x :: xs), ind => by
      have h1 := sizeVal_le_encodeVal x (ind + 4)
      have h2 := sizeItems_le_encodeListItems xs (ind + 4)
      simp only [sizeVal, sizeItems, encodeVal, List.length_append, List.length_cons,
        spaces, List.length_replicate]
      omega
  | .ptuple [], ind => by simp [sizeVal, sizeItems, encodeVal]
  | .ptuple (x :: xs), ind => by
      have h1 := sizeVal_le_encodeVal x (ind + 4)
      have h2 := sizeItems_le_encodeListItems xs (ind + 4)
      simp only [sizeVal, sizeItems, encodeVal, List.length_append, List.length_cons,
        spaces, List.length_replicate]
      omega
  | .pdict [], ind => by simp [sizeVal, sizeEntries, encodeVal]
  | .pdict ((k, v) :: es), ind => by
      have h1 := sizeVal_le_encodeVal v (ind + 4)
      have h2 := sizeEntries_le_encodeDictItems es (ind + 4)
      simp only [sizeVal, sizeEntries, encodeVal, List.length_append, List.length_cons,
        spaces, List.length_replicate]
      omega

theorem sizeItems_le_encodeListItems : ∀ (xs : List PyVal) (ind : ℕ),
    sizeItems xs ≤ (encodeListItems ind xs).length
  | [], ind => by simp [sizeItems, encodeListItems]
  | x :: xs, ind => by
      have h1 := sizeVal_le_encodeVal x ind
      have h2 := sizeItems_le_encodeListItems xs ind
      simp only [sizeItems, encodeListItems, List.length_append, List.length_cons,
        spaces, List.length_replicate]
      omega

theorem sizeEntries_le_encodeDictItems : ∀ (es : List (PyKey × PyVal)) (ind : ℕ),
    sizeEntries es ≤ (encodeDictItems ind es).length
  | [], ind => by simp [sizeEntries, encodeDictItems]
  | (k, v) :: es, ind => by
      have h1 := sizeVal_le_encodeVal v ind
      have h2 := sizeEntries_le_encodeDictItems es ind
      simp only [sizeEntries, encodeDictItems, List.length_append, List.length_cons,
        spaces, List.length_replicate]
      omega

end

theorem sizeVal_pos (v : PyVal) : 1 ≤ sizeVal v := by
  cases v <;> simp [sizeVal]

/-! ### The round trip on encoder outputs -/

mutual

theorem parseVal_encodeVal : ∀ (v : PyVal) (fuel ind : ℕ) (rest : List Char),
    canonicalVal v = true → sizeVal v < fuel → noNumHead rest →
    parseVal fuel (encodeVal ind v ++ rest) = some (v, rest)
  | .pstr s, fuel, ind, rest, hc, hs, hr => by
      obtain ⟨f, rfl⟩ : ∃ f, fuel = f + 1 := ⟨fuel - 1, by omega⟩
      rw [parseVal]
      rw [show encodeVal ind (.pstr s) ++ rest =
        '"' :: ((s.map escapeChar).flatten ++ '"' :: rest) from by
          simp [encodeVal, encodeString]]
      rw [skipWs_cons_not_ws _ _ (by decide)]
      dsimp only
      rw [if_pos rfl]
      rw [parseStringBody_encode s _ rest (by
        have := flatten_escape_length s
        simp only [List.length_append, List.length_cons]
        omega)]
  | .pint i, fuel, ind, rest, hc, hs, hr => by
      obtain ⟨f, rfl⟩ : ∃ f, fuel = f + 1 := ⟨fuel - 1, by omega⟩
      rw [parseVal]
      by_cases hneg : i < 0
      · rw [show encodeVal ind (.pint i) ++ rest =
          '-' :: (natToChars i.natAbs ++ rest) from by
            simp [encodeVal, intToChars, if_pos hneg]]
        rw [skipWs_cons_not_ws _ _ (by decide)]
        dsimp only
        rw [if_neg (by decide), if_neg (by decide), if_neg (by decide),
          if_neg (by decide), if_neg (by decide), if_neg (by decide)]
        rw [show ('-' :: (natToChars i.natAbs ++ rest) : List Char) =
          intToChars i ++ rest from by simp [intToChars, if_pos hneg]]
        rw [parseNumTok_intToChars i rest hr]
      · obtain ⟨c, cs, hcs, hd⟩ := natToChars_head i.toNat
        have hp := digit_head_props c hd
        rw [show encodeVal ind (.pint i) ++ rest = c :: (cs ++ rest) from by
          simp [encodeVal, intToChars, if_neg hneg, hcs]]
        rw [skipWs_cons_not_ws _ _ hp.1]
        dsimp only
        rw [if_neg hp.2.1, if_neg hp.2.2.1, if_neg hp.2.2.2.1, if_neg hp.2.2.2.2.1,
          if_neg hp.2.2.2.2.2.1, if_neg hp.2.2.2.2.2.2.1]
        rw [show (c :: (cs ++ rest) : List Char) = intToChars i ++ rest from by
          simp [intToChars, if_neg hneg, hcs]]
        rw [parseNumTok_intToChars i rest hr]
  | .pfloat m e, fuel, ind, rest, hc, hs, hr => by
      obtain ⟨f, rfl⟩ : ∃ f, fuel = f + 1 := ⟨fuel - 1, by omega⟩
      rw [parseVal]
      have hcanon : floatCanon m e = true := by
        simpa [canonicalVal] using hc
      obtain ⟨c, t, hct, hd⟩ := floatRepr_head m e
      rcases hd with hd | hd
      · have hp := digit_head_props c hd
        rw [show encodeVal ind (.pfloat m e) ++ rest = c :: (t ++ rest) from by
          show floatRepr m e ++ rest = _
          rw [hct, List.cons_append]]
        rw [skipWs_cons_not_ws _ _ hp.1]
        dsimp only
        rw [if_neg hp.2.1, if_neg hp.2.2.1, if_neg hp.2.2.2.1, if_neg hp.2.2.2.2.1,
          if_neg hp.2.2.2.2.2.1, if_neg hp.2.2.2.2.2.2.1]
        rw [show (c :: (t ++ rest) : List Char) = floatRepr m e ++ rest from by
          rw [hct, List.cons_append]]
        rw [parseNumTok_floatRepr m e rest hcanon hr]
      · subst hd
        rw [show encodeVal ind (.pfloat m e) ++ rest = '-' :: (t ++ rest) from by
          show floatRepr m e ++ rest = _
          rw [hct, List.cons_append]]
        rw [skipWs_cons_not_ws _ _ (by decide)]
        dsimp only
        rw [if_neg (by decide), if_neg (by decide), if_neg (by decide),
          if_neg (by decide), if_neg (by decide), if_neg (by decide)]
        rw [show ('-' :: (t ++ rest) : List Char) = floatRepr m e ++ rest from by
          rw [hct, List.cons_append]]
        rw [parseNumTok_floatRepr m e rest hcanon hr]
  | .ptuple xs, fuel, ind, rest, hc, hs, hr => by
      exact absurd hc (by simp [canonicalVal])
  | .pbool true, fuel, ind, rest, hc, hs, hr => by
      obtain ⟨f, rfl⟩ : ∃ f, fuel = f + 1 := ⟨fuel - 1, by omega⟩
      rw [parseVal]
      rfl
  | .pbool false, fuel, ind, rest, hc, hs, hr => by
      obtain ⟨f, rfl⟩ : ∃ f, fuel = f + 1 := ⟨fuel - 1, by omega⟩
      rw [parseVal]
      rfl
  | .pnone, fuel, ind, rest, hc, hs, hr => by
      obtain ⟨f, rfl⟩ : ∃ f, fuel = f + 1 := ⟨fuel - 1, by omega⟩
      rw [parseVal]
      rfl
  | .plist [], fuel, ind, rest, hc, hs, hr => by
      obtain ⟨f, rfl⟩ : ∃ f, fuel = f + 1 := ⟨fuel - 1, by omega⟩
      rw [parseVal]
      rfl
  | .plist (x :: xs), fuel, ind, rest, hc, hs, hr => by
      obtain ⟨f, rfl⟩ : ∃ f, fuel = f + 1 := ⟨fuel - 1, by omega⟩
      have hcx : canonicalVal x = true ∧ canonicalItems xs = true := by
        simpa [canonicalVal, canonicalItems] using hc
      obtain ⟨c, t, hct, hcw, hcb, hcrb⟩ := encodeVal_head (ind + 4) x
      rw [parseVal]
      rw [show encodeVal ind (.plist (x :: xs)) ++ rest =
        '[' :: ('\n' :: (spaces (ind + 4) ++ (encodeVal (ind + 4) x ++
          (encodeListItems (ind + 4) xs ++
            ('\n' :: (spaces ind ++ ']' :: rest)))))) from by
          simp [encodeVal, List.append_assoc]]
      rw [skipWs_cons_not_ws _ _ (by decide)]
      dsimp only
      rw [if_neg (by decide), if_pos rfl, skipWs_nl]
      rw [show skipWs (encodeVal (ind + 4) x ++ (encodeListItems (ind + 4) xs ++
          ('\n' :: (spaces ind ++ ']' :: rest)))) =
        c :: (t ++ (encodeListItems (ind + 4) xs ++
          ('\n' :: (spaces ind ++ ']' :: rest)))) from by
          rw [hct, List.cons_append, skipWs_cons_not_ws _ _ hcw]]
      dsimp only
      rw [if_neg hcb]
      rw [parseListLoop_items x xs f
        (by simp only [sizeVal] at hs; omega) ind (ind + 4) rest hcx.1 hcx.2]
  | .pdict [], fuel, ind, rest, hc, hs, hr => by
      obtain ⟨f, rfl⟩ : ∃ f, fuel = f + 1 := ⟨fuel - 1, by omega⟩
      rw [parseVal]
      rfl
  | .pdict ((k, v) :: es), fuel, ind, rest, hc, hs, hr => by
      obtain ⟨f, rfl⟩ : ∃ f, fuel = f + 1 := ⟨fuel - 1, by omega⟩
      have hc2 : keyIsStr k = true ∧ (es.all fun e => keyIsStr e.1) = true ∧
          canonicalVal v = true ∧ canonicalEntries es = true := by
        simp only [canonicalVal, Bool.and_eq_true, List.all_cons,
          canonicalEntries] at hc
        tauto
      obtain ⟨s, rfl⟩ : ∃ s, k = PyKey.kstr s := by
        cases k with
        | kstr s => exact ⟨s, rfl⟩
        | kint i => simp [keyIsStr] at hc2
        | kbool b => simp [keyIsStr] at hc2
        | knone => simp [keyIsStr] at hc2
      rw [parseVal]
      rw [show encodeVal ind (.pdict ((PyKey.kstr s, v) :: es)) ++ rest =
        lbrace :: ('\n' :: (spaces (ind + 4) ++ (encodeString s ++
          (':' :: ' ' :: (encodeVal (ind + 4) v ++ (encodeDictItems (ind + 4) es ++
            ('\n' :: (spaces ind ++ rbrace :: rest)))))))) from by
          simp [encodeVal, keyToString, List.append_assoc]]
      rw [skipWs_cons_not_ws _ _ (by decide)]
      dsimp only
      rw [if_neg (by decide), if_neg (by decide), if_pos rfl, skipWs_nl]
      rw [show skipWs (encodeString s ++ (':' :: ' ' :: (encodeVal (ind + 4) v ++
          (encodeDictItems (ind + 4) es ++ ('\n' :: (spaces ind ++ rbrace :: rest)))))) =
        '"' :: ((s.map escapeChar).flatten ++ '"' ::
          (':' :: ' ' :: (encodeVal (ind + 4) v ++ (encodeDictItems (ind + 4) es ++
            ('\n' :: (spaces ind ++ rbrace :: rest)))))) from by
          rw [encodeString, List.cons_append, skipWs_cons_not_ws _ _ (by decide),
            List.append_assoc, List.singleton_append]]
      dsimp only
      rw [if_neg (by decide)]
      rw [parseDictLoop_entries s v es f
        (by simp only [sizeVal] at hs; omega) ind (ind + 4) rest
        hc2.2.2.1 hc2.2.2.2 hc2.2.1]
  termination_by v fuel ind rest hc hs hr => sizeVal v
  decreasing_by
    all_goals simp only [sizeVal, sizeItems, sizeEntries]
    all_goals omega

theorem parseListLoop_items : ∀ (x : PyVal) (xs : List PyVal) (fuel : ℕ),
    sizeItems (x :: xs) ≤ fuel → ∀ (i j : ℕ) (rest : List Char),
    canonicalVal x = true → canonicalItems xs = true →
    parseListLoop fuel ('\n' :: (spaces j ++ (encodeVal j x ++
      (encodeListItems j xs ++ ('\n' :: (spaces i ++ ']' :: rest)))))) =
      some (x :: xs, rest)
  | x, [], fuel, hsize, i, j, rest, hcx, hcxs => by
      obtain ⟨f, rfl⟩ : ∃ f, fuel = f + 1 :=
        ⟨fuel - 1, by simp only [sizeItems] at hsize; omega⟩
      rw [parseListLoop]
      rw [parseVal_congr_skipWs (f + 1) _ _ (skipWs_nl j _)]
      simp only [encodeListItems, List.nil_append]
      rw [parseVal_encodeVal x (f + 1) j ('\n' :: (spaces i ++ ']' :: rest)) hcx
        (by simp only [sizeItems] at hsize; omega) (by exact ⟨by decide, by decide, by decide, by decide⟩)]
      simp only
      rw [skipWs_nl, skipWs_cons_not_ws _ _ (by decide)]
      simp only
  | x, y :: ys, fuel, hsize, i, j, rest, hcx, hcxs => by
      obtain ⟨f, rfl⟩ : ∃ f, fuel = f + 1 :=
        ⟨fuel - 1, by simp only [sizeItems] at hsize; omega⟩
      have hcy : canonicalVal y = true ∧ canonicalItems ys = true := by
        simpa [canonicalItems] using hcxs
      have hx1 := sizeVal_pos x
      rw [parseListLoop]
      rw [parseVal_congr_skipWs (f + 1) _ _ (skipWs_nl j _)]
      rw [show encodeListItems j (y :: ys) ++ ('\n' :: (spaces i ++ ']' :: rest)) =
        ',' :: ('\n' :: (spaces j ++ (encodeVal j y ++ (encodeListItems j ys ++
          ('\n' :: (spaces i ++ ']' :: rest)))))) from by
          simp [encodeListItems, List.append_assoc]]
      rw [parseVal_encodeVal x (f + 1) j
        (',' :: ('\n' :: (spaces j ++ (encodeVal j y ++ (encodeListItems j ys ++
          ('\n' :: (spaces i ++ ']' :: rest))))))) hcx
        (by simp only [sizeItems] at hsize; omega) (by exact ⟨by decide, by decide, by decide, by decide⟩)]
      simp only
      rw [skipWs_cons_not_ws _ _ (by decide)]
      simp only
      rw [parseListLoop_items y ys f
        (by simp only [sizeItems] at hsize ⊢; omega) i j rest hcy.1 hcy.2]
  termination_by x xs fuel hsize i j rest hcx hcxs => sizeItems (x :: xs)
  decreasing_by
    all_goals simp only [sizeVal, sizeItems, sizeEntries]
    all_goals omega

theorem parseDictLoop_entries : ∀ (s : List Char) (v : PyVal)
    (es : List (PyKey × PyVal)) (fuel : ℕ),
    sizeEntries ((PyKey.kstr s, v) :: es) ≤ fuel → ∀ (i j : ℕ) (rest : List Char),
    canonicalVal v = true → canonicalEntries es = true →
    (es.all fun e => keyIsStr e.1) = true →
    parseDictLoop fuel ('\n' :: (spaces j ++ (encodeString s ++
      (':' :: ' ' :: (encodeVal j v ++ (encodeDictItems j es ++
        ('\n' :: (spaces i ++ rbrace :: rest)))))))) =
      some ((PyKey.kstr s, v) :: es, rest)
  | s, v, [], fuel, hsize, i, j, rest, hcv, hces, hall => by
      obtain ⟨f, rfl⟩ : ∃ f, fuel = f + 1 :=
        ⟨fuel - 1, by simp only [sizeEntries] at hsize; omega⟩
      rw [parseDictLoop, skipWs_nl]
      rw [show skipWs (encodeString s ++ (':' :: ' ' :: (encodeVal j v ++
          (encodeDictItems j [] ++ ('\n' :: (spaces i ++ rbrace :: rest)))))) =
        '"' :: ((s.map escapeChar).flatten ++ '"' ::
          (':' :: ' ' :: (encodeVal j v ++ (encodeDictItems j [] ++
            ('\n' :: (spaces i ++ rbrace :: rest)))))) from by
          rw [encodeString, List.cons_append, skipWs_cons_not_ws _ _ (by decide),
            List.append_assoc, List.singleton_append]]
      simp only
      rw [parseStringBody_encode s _ _ (by
        have := flatten_escape_length s
        simp only [List.length_append, List.length_cons]
        omega)]
      simp only
      rw [skipWs_cons_not_ws _ _ (by decide)]
      simp only
      rw [parseVal_congr_skipWs (f + 1) _ _ (skipWs_space _)]
      simp only [encodeDictItems, List.nil_append]
      rw [parseVal_encodeVal v (f + 1) j ('\n' :: (spaces i ++ rbrace :: rest)) hcv
        (by simp only [sizeEntries] at hsize; omega) (by exact ⟨by decide, by decide, by decide, by decide⟩)]
      simp only
      rw [skipWs_nl, skipWs_cons_not_ws _ _ (by decide)]
      rfl
  | s, v, (k2, v2) :: es', fuel, hsize, i, j, rest, hcv, hces, hall => by
      obtain ⟨f, rfl⟩ : ∃ f, fuel = f + 1 :=
        ⟨fuel - 1, by simp only [sizeEntries] at hsize; omega⟩
      have hv1 := sizeVal_pos v
      have hc2 : keyIsStr k2 = true ∧ (es'.all fun e => keyIsStr e.1) = true := by
        simpa using hall
      have hce2 : canonicalVal v2 = true ∧ canonicalEntries es' = true := by
        simpa [canonicalEntries] using hces
      obtain ⟨s2, rfl⟩ : ∃ s2, k2 = PyKey.kstr s2 := by
        cases k2 with
        | kstr s2 => exact ⟨s2, rfl⟩
        | kint i2 => simp [keyIsStr] at hc2
        | kbool b2 => simp [keyIsStr] at hc2
        | knone => simp [keyIsStr] at hc2
      rw [parseDictLoop, skipWs_nl]
      rw [show skipWs (encodeString s ++ (':' :: ' ' :: (encodeVal j v ++
          (encodeDictItems j ((PyKey.kstr s2, v2) :: es') ++
            ('\n' :: (spaces i ++ rbrace :: rest)))))) =
        '"' :: ((s.map escapeChar).flatten ++ '"' ::
          (':' :: ' ' :: (encodeVal j v ++ (encodeDictItems j ((PyKey.kstr s2, v2) :: es') ++
            ('\n' :: (spaces i ++ rbrace :: rest)))))) from by
          rw [encodeString, List.cons_append, skipWs_cons_not_ws _ _ (by decide),
            List.append_assoc, List.singleton_append]]
      simp only
      rw [parseStringBody_encode s _ _ (by
        have := flatten_escape_length s
        simp only [List.length_append, List.length_cons]
        omega)]
      simp only
      rw [skipWs_cons_not_ws _ _ (by decide)]
      simp only
      rw [parseVal_congr_skipWs (f + 1) _ _ (skipWs_space _)]
      rw [show encodeDictItems j ((PyKey.kstr s2, v2) :: es') ++
          ('\n' :: (spaces i ++ rbrace :: rest)) =
        ',' :: ('\n' :: (spaces j ++ (encodeString s2 ++ (':' :: ' ' ::
          (encodeVal j v2 ++ (encodeDictItems j es' ++
            ('\n' :: (spaces i ++ rbrace :: rest)))))))) from by
          simp [encodeDictItems, keyToString, List.append_assoc]]
      rw [parseVal_encodeVal v (f + 1) j
        (',' :: ('\n' :: (spaces j ++ (encodeString s2 ++ (':' :: ' ' ::
          (encodeVal j v2 ++ (encodeDictItems j es' ++
            ('\n' :: (spaces i ++ rbrace :: rest))))))))) hcv
        (by simp only [sizeEntries] at hsize; omega) (by exact ⟨by decide, by decide, by decide, by decide⟩)]
      simp only
      rw [skipWs_cons_not_ws _ _ (by decide)]
      simp only
      rw [parseDictLoop_entries s2 v2 es' f
        (by simp only [sizeEntries] at hsize ⊢; omega) i j rest
        hce2.1 hce2.2 hc2.2]
  termination_by s v es fuel hsize i j rest hcv hces hall =>
    sizeEntries ((PyKey.kstr s, v) :: es)
  decreasing_by
    all_goals simp only [sizeVal, sizeItems, sizeEntries]
    all_goals omega

end

/-- Dump-then-load is the identity on canonical values. -/
theorem json_loads_dumps (d : PyVal) (h : canonicalVal d = true) :
    json_loads (json_dumps d) = some d := by
  have hsz := sizeVal_le_encodeVal d 0
  have h2 := parseVal_encodeVal d ((encodeVal 0 d).length + 1) 0 [] h
    (by omega) trivial
  rw [List.append_nil] at h2
  rw [json_loads, json_dumps, h2]
  rfl

mutual

theorem encodeVal_tupleToList : ∀ (v : PyVal) (ind : ℕ),
    encodeVal ind (tupleToList v) = encodeVal ind v
  | .pstr s, ind => rfl
  | .pint i, ind => rfl
  | .pfloat m e, ind => rfl
  | .pbool b, ind => rfl
  | .pnone, ind => rfl
  | .plist [], ind => rfl
  | .plist (x :: xs), ind => by
      show encodeVal ind (.plist (tupleToList x :: tupleToListItems xs)) = _
      rw [encodeVal, encodeVal, encodeVal_tupleToList x (ind + 4),
        encodeListItems_tupleToList xs (ind + 4)]
  | .ptuple [], ind => rfl
  | .ptuple (x :: xs), ind => by
      show encodeVal ind (.plist (tupleToList x :: tupleToListItems xs)) = _
      rw [encodeVal, encodeVal, encodeVal_tupleToList x (ind + 4),
        encodeListItems_tupleToList xs (ind + 4)]
  | .pdict [], ind => rfl
  | .pdict ((k, v) :: es), ind => by
      show encodeVal ind (.pdict ((k, tupleToList v) :: tupleToListEntries es)) = _
      rw [encodeVal, encodeVal, encodeVal_tupleToList v (ind + 4),
        encodeDictItems_tupleToList es (ind + 4)]

theorem encodeListItems_tupleToList : ∀ (xs : List PyVal) (ind : ℕ),
    encodeListItems ind (tupleToListItems xs) = encodeListItems ind xs
  | [], ind => rfl
  | x :: xs, ind => by
      show encodeListItems ind (tupleToList x :: tupleToListItems xs) = _
      rw [encodeListItems, encodeListItems, encodeVal_tupleToList x ind,
        encodeListItems_tupleToList xs ind]

theorem encodeDictItems_tupleToList : ∀ (es : List (PyKey × PyVal)) (ind : ℕ),
    encodeDictItems ind (tupleToListEntries es) = encodeDictItems ind es
  | [], ind => rfl
  | (k, v) :: es, ind => by
      show encodeDictItems ind ((k, tupleToList v) :: tupleToListEntries es) = _
      rw [encodeDictItems, encodeDictItems, encodeVal_tupleToList v ind,
        encodeDictItems_tupleToList es ind]

end

/-- `json.dump` writes tuples as JSON arrays, so on a value containing
tuples the round trip returns the value with every tuple replaced by
the corresponding list. -/
theorem json_loads_dumps_tupleToList (d : PyVal)
    (h : canonicalVal (tupleToList d) = true) :
    json_loads (json_dumps d) = some (tupleToList d) := by
  have henc : json_dumps d = json_dumps (tupleToList d) := by
    rw [json_dumps, json_dumps, encodeVal_tupleToList]
  rw [henc]
  exact json_loads_dumps (tupleToList d) h

/-- The string-keyed dict `{'a': (1, 2)}` is JSON-serializable, but
its dump parses back as `{'a': [1, 2]}`, a different value — so the
amended round-trip identity genuinely cannot include tuple values. -/
theorem tupleToList_roundtrip :
    json_loads (json_dumps (PyVal.pdict [(PyKey.kstr ['a'],
      PyVal.ptuple [PyVal.pint 1, PyVal.pint 2])])) =
      some (PyVal.pdict [(PyKey.kstr ['a'],
        PyVal.plist [PyVal.pint 1, PyVal.pint 2])]) ∧
    PyVal.pdict [(PyKey.kstr ['a'], PyVal.plist [PyVal.pint 1, PyVal.pint 2])] ≠
      PyVal.pdict [(PyKey.kstr ['a'], PyVal.ptuple [PyVal.pint 1, PyVal.pint 2])] := by
  constructor
  · have h := json_loads_dumps_tupleToList
      (PyVal.pdict [(PyKey.kstr ['a'], PyVal.ptuple [PyVal.pint 1, PyVal.pint 2])])
      (by simp [tupleToList, tupleToListItems, tupleToListEntries, canonicalVal,
        canonicalItems, canonicalEntries, keysDistinct, keyIsStr, keyToString])
    simpa [tupleToList, tupleToListItems, tupleToListEntries] using h
  · simp

theorem intToChars_one : intToChars 1 = ['1'] := by
  rw [intToChars, if_neg (by norm_num)]
  rw [show (1 : ℤ).toNat = 1 from rfl]
  rw [natToChars, dif_pos (by norm_num)]

/-- C8 counterexample: the dict `{1: "a"}` is JSON-serializable
(`json.dump` coerces the key `1` to the string `"1"`), but the JSON
parse of the written file is `{"1": "a"}`, which is a different
dictionary — dump followed by load is not the identity on it. -/
theorem claim_C8_counterexample :
    json_loads (dump_dict "out.json"
      (PyVal.pdict [(PyKey.kint 1, PyVal.pstr ['a'])])).2 =
      some (PyVal.pdict [(PyKey.kstr ['1'], PyVal.pstr ['a'])]) ∧
    PyVal.pdict [(PyKey.kstr ['1'], PyVal.pstr ['a'])] ≠
      PyVal.pdict [(PyKey.kint 1, PyVal.pstr ['a'])] := by
  constructor
  · have hd : (dump_dict "out.json"
        (PyVal.pdict [(PyKey.kint 1, PyVal.pstr ['a'])])).2 =
        json_dumps (PyVal.pdict [(PyKey.kstr ['1'], PyVal.pstr ['a'])]) := by
      simp [dump_dict, json_dumps, encodeVal, keyToString, intToChars_one]
    rw [hd]
    exact json_loads_dumps _ (by simp [canonicalVal, canonicalEntries,
      keysDistinct, keyIsStr, keyToString])
  · simp

/-- C8 (amended): for every path and every dictionary whose keys — at
every nesting level — are strings (with the distinct keys every Python
dict has) and whose values are built from strings, integers, finite
floats, booleans, `None`, lists and such dictionaries,
`dump_dict(path, d)` writes a file at `path` whose JSON parse equals
`d`.  The remaining JSON-serializable values genuinely break the
identity, so the amendment excludes them: non-string keys are coerced
to strings (`claim_C8_counterexample`), tuple values are written as
JSON arrays and parse back as lists (`tupleToList_roundtrip`), and a
`NaN` float never compares equal to its parsed copy (`float('nan') !=
float('nan')` in Python). -/
theorem claim_C8_amended (path : String) (d : PyVal)
    (h : canonicalVal d = true) :
    (dump_dict path d).1 = path ∧ json_loads (dump_dict path d).2 = some d :=
  ⟨rfl, json_loads_dumps d h⟩

theorem claim_C8_amended_witness :
    canonicalVal (PyVal.pdict [(PyKey.kstr ['a'], PyVal.pint 5),
      (PyKey.kstr ['l', 'r'], PyVal.pfloat 1 (-3)),
      (PyKey.kstr ['b'], PyVal.plist [PyVal.pbool true, PyVal.pnone])]) = true ∧
    (dump_dict "cfg.json" (PyVal.pdict [(PyKey.kstr ['a'], PyVal.pint 5),
      (PyKey.kstr ['l', 'r'], PyVal.pfloat 1 (-3)),
      (PyKey.kstr ['b'], PyVal.plist [PyVal.pbool true, PyVal.pnone])])).1 =
      "cfg.json" ∧
    json_loads (dump_dict "cfg.json"
      (PyVal.pdict [(PyKey.kstr ['a'], PyVal.pint 5),
        (PyKey.kstr ['l', 'r'], PyVal.pfloat 1 (-3)),
        (PyKey.kstr ['b'], PyVal.plist [PyVal.pbool true, PyVal.pnone])])).2 =
      some (PyVal.pdict [(PyKey.kstr ['a'], PyVal.pint 5),
        (PyKey.kstr ['l', 'r'], PyVal.pfloat 1 (-3)),
        (PyKey.kstr ['b'], PyVal.plist [PyVal.pbool true, PyVal.pnone])]) :=
  ⟨by simp [canonicalVal, canonicalItems, canonicalEntries, keysDistinct,
      keyIsStr, keyToString, floatCanon],
   (claim_C8_amended "cfg.json" _ (by simp [canonicalVal, canonicalItems,
      canonicalEntries, keysDistinct, keyIsStr, keyToString, floatCanon])).1,
   (claim_C8_amended "cfg.json" _ (by simp [canonicalVal, canonicalItems,
      canonicalEntries, keysDistinct, keyIsStr, keyToString, floatCanon])).2⟩

end PytorchWrapper
